import Mathlib

/-!
Shallow embedding of `RFControl.cpp` (RFControl library) and verification of
the specification claims about it.

Conventions of the embedding:
* `unsigned int` is the 16-bit unsigned integer of the AVR target (the source
  says "Scale down time by 4 to fit in 16 bit unsigned int"); arithmetic that
  can wrap is reduced with `u16`.  `unsigned long` is 32 bits (`u32`).
  `byte` arithmetic wraps modulo 256, written explicitly as `% 256`.
* C division by zero is undefined behaviour; the interrupt handler `isr` is
  therefore modelled as returning `Option`, with `none` exactly when the
  `periods` computation divides by `periodTime = 0`.
* In-place arrays are threaded functionally: `msgbuf` is a function
  `Nat → Nat`, the 8-entry bucket/sum/count arrays are lists of length 8,
  and the caller's `timings` array is a `List Nat` whose returned value is
  the array's final contents.
* `while` loops that the source bounds only through 8-bit wraparound are
  rendered with an explicit fuel that provably dominates the loop's real
  iteration count.
-/

/-- Truncation to a 16-bit `unsigned int` (AVR target of the source). -/
def u16 (n : Nat) : Nat := n % 65536

/-- Truncation to a 32-bit `unsigned long` (used for the bucket `sums`). -/
def u32 (n : Nat) : Nat := n % 4294967296

/-- Noise filter: minimal number of pulses for a real message. -/
def MIN_MSG_LEN : Nat := 16

/-- Max length of a data pulse, in periods; longer pulses are sync. -/
def MAX_PULSE_PERIODS : Nat := 20

/-- Minimum signal period time for a proper message (120 / PULSE_LENGTH_DIVIDER). -/
def MIN_PERIOD_TIME : Nat := 120 / 4

/-- PULSE_LENGTH_DIVIDER: times are scaled down by 4. -/
def PULSE_LENGTH_DIVIDER : Nat := 4

/-- Index of the first list element satisfying `p` (the `for`-with-`break`
scan used by the bucket loops). -/
def firstIdx {α : Type} (p : α → Bool) : List α → Option Nat
  | [] => none
  | x :: xs => if p x then some 0 else (firstIdx p xs).map (fun i => i + 1)

/-- Bucket tolerance test from `compressTimings`:
`delta = refVal/4 + refVal/8; refVal - delta < val && val < refVal + delta`,
in 16-bit unsigned arithmetic. -/
def fits (refVal val : Nat) : Bool :=
  let delta := refVal / 4 + refVal / 8
  decide (refVal - delta < val) && decide (val < u16 (refVal + delta))

/-- State of the bucket-classification loops: the caller's 8-entry `buckets`
array and the local `sums` and `counts` arrays. -/
structure CTState where
  buckets : List Nat
  sums : List Nat
  counts : List Nat
deriving Repr, DecidableEq

/-- All three arrays zero-initialised, as at the top of `compressTimings`. -/
def initCT : CTState :=
  ⟨List.replicate 8 0, List.replicate 8 0, List.replicate 8 0⟩

/-- One iteration of the bucket-sorting `for(i..)` body: scan the 8 slots in
index order; an empty slot (`refVal == 0`) receives the value as its new
reference, a slot whose reference fits the value accumulates it; `none` when
`j` reaches 8 (the `return false` path). The returned `Nat` is the slot
index `j` assigned to this timing. -/
def ctStep (s : CTState) (val : Nat) : Option (CTState × Nat) :=
  match firstIdx (fun r => r == 0 || fits r val) s.buckets with
  | none => none
  | some j =>
    if s.buckets.getD j 0 == 0 then
      some (⟨s.buckets.set j val, s.sums.set j (u32 (s.sums.getD j 0 + val)),
             s.counts.set j (s.counts.getD j 0 + 1)⟩, j)
    else
      some (⟨s.buckets, s.sums.set j (u32 (s.sums.getD j 0 + val)),
             s.counts.set j (s.counts.getD j 0 + 1)⟩, j)

/-- The sorting loop of `compressTimings`, which relabels `timings` in place:
the returned list is the final contents of the caller's array.  On failure
(`false`) the already-processed prefix has been relabelled and the suffix,
starting with the offending value, is untouched. -/
def ctAux (s : CTState) : List Nat → Bool × CTState × List Nat
  | [] => (true, s, [])
  | v :: vs =>
    match ctStep s v with
    | none => (false, s, v :: vs)
    | some (s', j) =>
      let r := ctAux s' vs
      (r.1, r.2.1, j :: r.2.2)

/-- Final averaging loop: `if (counts[j] != 0) buckets[j] = sums[j]/counts[j]`,
the 32-bit quotient truncated on assignment to the 16-bit `buckets[j]`. -/
def finalizeBuckets : List Nat → List Nat → List Nat → List Nat
  | b :: bs, su :: ss, c :: cs =>
    (if c ≠ 0 then u16 (su / c) else b) :: finalizeBuckets bs ss cs
  | bs, _, _ => bs

/-- `RFControl::compressTimings`: returns (success, final `buckets` array,
final `timings` array). -/
def compressTimings (ts : List Nat) : Bool × List Nat × List Nat :=
  let r := ctAux initCT ts
  if r.1 then
    (true, finalizeBuckets r.2.1.buckets r.2.1.sums r.2.1.counts, r.2.2)
  else (false, r.2.1.buckets, r.2.2)

/-- First loop of `compressTimingsAndSortBuckets`: identical slot logic, but
the timings array is only read ("timings need only there to load"), never
written. -/
def ctsbAux (s : CTState) : List Nat → Bool × CTState
  | [] => (true, s)
  | v :: vs =>
    match ctStep s v with
    | none => (false, s)
    | some (s', _) => ctsbAux s' vs

/-- One left-to-right pass of the bubble sort, carrying the element currently
being compared: at each `j`, `if (buckets[j] > buckets[j+1]) swap`. -/
def bpassFrom (a : Nat) : List Nat → List Nat
  | [] => [a]
  | b :: t => if b < a then b :: bpassFrom a t else a :: bpassFrom b t

/-- One left-to-right pass of the bubble sort (the inner `j` loop). -/
def bpass : List Nat → List Nat
  | [] => []
  | a :: t => bpassFrom a t

/-- The full double loop: 8 bubble passes over the 8 buckets. -/
def sort8 (b : List Nat) : List Nat := bpass^[8] b

/-- Body of the compaction loop:
`buckets[i] = buckets[first]; buckets[first] = 0; first++`. -/
def copyStep (b : List Nat) (i f : Nat) : List Nat :=
  (b.set i (b.getD f 0)).set f 0

/-- The compaction loop `for(i = 0; i < end; i++)`, with `end` iterations. -/
def compactAux : List Nat → Nat → Nat → Nat → List Nat
  | b, _, _, 0 => b
  | b, i, f, n + 1 => compactAux (copyStep b i f) (i + 1) (f + 1) n

/-- Move the zeros that the ascending sort left at the front behind the
populated entries: find the first non-zero entry (`first`, 0 when none),
then run the copy loop `end = 8 - first` times. -/
def compact (b : List Nat) : List Nat :=
  let first := (firstIdx (fun x => x != 0) b).getD 0
  compactAux b 0 first (8 - first)

/-- Second pass of `compressTimingsAndSortBuckets`: assign a timing the
position value of the first bucket whose precomputed
`(ref_Val_l, ref_Val_h)` band strictly contains it; a timing that fits no
bucket is left unchanged (the loop has no else branch). -/
def relabelOne (b : List Nat) (val : Nat) : Nat :=
  (firstIdx (fun j =>
      let refVal := b.getD j 0
      let delta := refVal / 4 + refVal / 8
      decide (refVal - delta < val) && decide (val < u16 (refVal + delta)))
    (List.range 8)).getD val

/-- `RFControl::compressTimingsAndSortBuckets`: bucket the timings, average,
bubble-sort the 8 buckets ascending, compact the zeros to the back, then
relabel the original timings against the sorted buckets.  Returns (success,
final `buckets` array, final `timings` array); on failure the timings are
those of the caller (the first pass never writes them). -/
def compressTimingsAndSortBuckets (ts : List Nat) : Bool × List Nat × List Nat :=
  let r := ctsbAux initCT ts
  if r.1 then
    let b := compact (sort8 (finalizeBuckets r.2.buckets r.2.sums r.2.counts))
    (true, b, ts.map (relabelOne b))
  else (false, r.2.buckets, ts)

/-- One classification step exactly as claim C2 words it: scan classes in
index order and assign the duration to the first class whose *current mean*
(running sum divided by running count) lies within the closed band
`[mean - (mean/4 + mean/8), mean + (mean/4 + mean/8)]`, updating that class's
running sum, count and (hence) reported mean after each assignment; open an
empty slot when no class fits; fail when all 8 slots are occupied and none
fits.  A class is a `(sum, count)` pair. -/
def ctStepClaim (cs : List (Nat × Nat)) (val : Nat) : Option (List (Nat × Nat) × Nat) :=
  match firstIdx (fun c =>
      let mean := c.1 / c.2
      let delta := mean / 4 + mean / 8
      decide (mean - delta ≤ val) && decide (val ≤ mean + delta)) cs with
  | some j =>
    let c := cs.getD j (0, 1)
    some (cs.set j (c.1 + val, c.2 + 1), j)
  | none => if cs.length < 8 then some (cs ++ [(val, 1)], cs.length) else none

/-- Claim C2's description of `compressTimings` as a function (see
`ctStepClaim`); reported bucket means are the per-class running means. -/
def ctAuxClaim (cs : List (Nat × Nat)) : List Nat → Bool × List (Nat × Nat) × List Nat
  | [] => (true, cs, [])
  | v :: vs =>
    match ctStepClaim cs v with
    | none => (false, cs, v :: vs)
    | some (cs', j) =>
      let r := ctAuxClaim cs' vs
      (r.1, r.2.1, j :: r.2.2)

/-- The behaviour claim C2 attributes to `compressTimings`: returns
(success, bucket means, relabelled timings). -/
def compressTimingsClaim (ts : List Nat) : Bool × List Nat × List Nat :=
  let r := ctAuxClaim [] ts
  (r.1, (r.2.1.map (fun c => c.1 / c.2)) ++ List.replicate (8 - r.2.1.length) 0, r.2.2)

/-- A class accumulator of the amended claim C2: the slot's reference value
(the duration that last opened the slot), its running 32-bit sum and its
running count. -/
structure ClassAcc where
  ref : Nat
  sum : Nat
  cnt : Nat
deriving Repr, DecidableEq

/-- One classification step as the amended claim C2 words it: scan the open
classes in index order; the duration goes to the first class whose reference
value is 0 (re-opening that slot with the duration as new reference) or
whose fixed reference value strictly contains the duration in its open band
`(ref - (ref/4 + ref/8), ref + (ref/4 + ref/8))` (16-bit arithmetic); when no
open class takes it, a new class is opened if fewer than 8 exist, else the
call fails.  Sums and counts accumulate; means are not consulted. -/
def ctStepAmended (cs : List ClassAcc) (val : Nat) : Option (List ClassAcc × Nat) :=
  match firstIdx (fun c => c.ref == 0 || fits c.ref val) cs with
  | some j =>
    let c := cs.getD j ⟨0, 0, 0⟩
    if c.ref == 0 then
      some (cs.set j ⟨val, u32 (c.sum + val), c.cnt + 1⟩, j)
    else
      some (cs.set j ⟨c.ref, u32 (c.sum + val), c.cnt + 1⟩, j)
  | none => if cs.length < 8 then some (cs ++ [⟨val, u32 val, 1⟩], cs.length) else none

/-- Fold of `ctStepAmended` over the timings, collecting labels. -/
def ctAuxAmended (cs : List ClassAcc) : List Nat → Bool × List ClassAcc × List Nat
  | [] => (true, cs, [])
  | v :: vs =>
    match ctStepAmended cs v with
    | none => (false, cs, v :: vs)
    | some (cs', j) =>
      let r := ctAuxAmended cs' vs
      (r.1, r.2.1, j :: r.2.2)

/-- The amended claim C2's description of `compressTimings`: on success the
reported buckets are the truncated means `sum / count` of the classes in
opening order (unused slots 0); on failure the buckets hold the reference
values accumulated so far and the unprocessed timings are untouched. -/
def compressTimingsAmended (ts : List Nat) : Bool × List Nat × List Nat :=
  let r := ctAuxAmended [] ts
  if r.1 then
    (true, (r.2.1.map (fun c => u16 (c.sum / c.cnt))) ++ List.replicate (8 - r.2.1.length) 0,
      r.2.2)
  else
    (false, (r.2.1.map (fun c => c.ref)) ++ List.replicate (8 - r.2.1.length) 0, r.2.2)

/-- Refinement relation between the 8-slot arrays of `compressTimings` and
the growing class list of `compressTimingsAmended`: the slot arrays are the
class fields padded with zeros, and every class has been assigned at least
one duration. -/
def RelCT (s : CTState) (cs : List ClassAcc) : Prop :=
  s.buckets = cs.map ClassAcc.ref ++ List.replicate (8 - cs.length) 0 ∧
  s.sums = cs.map ClassAcc.sum ++ List.replicate (8 - cs.length) 0 ∧
  s.counts = cs.map ClassAcc.cnt ++ List.replicate (8 - cs.length) 0 ∧
  cs.length ≤ 8 ∧ ∀ c ∈ cs, c.cnt ≠ 0

/-- The shared state of the capture machinery: the `volatile` globals of the
source.  `msgbuf` is the message buffer, indexed by `Nat` (the circular part
lives at indices 0–255; `getRaw` also writes the flat extension). -/
structure CaptureState where
  lastTime : Nat
  periodTime : Nat
  streak : Nat
  writer : Nat
  reader : Nat
  msgbuf : Nat → Nat
  duration : Nat
  new_duration : Bool

/-- Unsigned 16-bit `now - lastTime`. -/
def pulseTimeOf (now lastTime : Nat) : Nat := (u16 now + 65536 - u16 lastTime) % 65536

/-- The handler's `periods = (pulseTime + periodTime/2) / periodTime`: C
division by zero is undefined behaviour, so the result is `none` when
`periodTime = 0` (there is no guard in the source). -/
def periodsOf (pulseTime periodTime : Nat) : Option Nat :=
  if periodTime = 0 then none else some (u16 (pulseTime + periodTime / 2) / periodTime)

/-- Noise reset and receive-append part of `isr`: on `periods == 0` reset the
streak; then, if a message is in progress, bounds-check the target slot
`writer + streak` against `reader` (drop the message when the reception
buffer is full) and otherwise store `periods` there and advance the streak.
`byte` arithmetic wraps modulo 256. -/
def isrAppend (periods : Nat) (st : CaptureState) : CaptureState :=
  let st1 := if periods = 0 then { st with streak := 0 } else st
  if 0 < st1.streak then
    let index := (st1.writer + st1.streak) % 256
    if index = st1.reader then { st1 with streak := 0 }
    else { st1 with streak := (st1.streak + 1) % 256,
                    msgbuf := fun k => if k = index then periods else st1.msgbuf k }
  else st1

/-- Low-pulse branch of `isr`: on a sync (`periodTime > MIN_PERIOD_TIME` and
`periods > MAX_PULSE_PERIODS`), finalize the message when the streak exceeds
`MIN_MSG_LEN` (write the period-time header at `writer` and advance `writer`
by the streak), then start a new streak of 1. -/
def isrSync (periods : Nat) (st : CaptureState) : CaptureState :=
  if MIN_PERIOD_TIME < st.periodTime ∧ MAX_PULSE_PERIODS < periods then
    let st1 :=
      if MIN_MSG_LEN < st.streak then
        { st with msgbuf := fun k => if k = st.writer then st.periodTime else st.msgbuf k,
                  writer := (st.writer + st.streak) % 256 }
      else st
    { st1 with streak := 1 }
  else st

/-- High-pulse branch of `isr`: over-long pulses are noise (streak reset);
in-message single-period pulses refine `periodTime` by the weighted running
average `(periodTime*streak + 2*pulseTime) / (streak + 2)` (16-bit
numerator); outside a message the raw pulse re-seeds `periodTime`. -/
def isrHigh (periods pulseTime : Nat) (st : CaptureState) : CaptureState :=
  let st1 := if MAX_PULSE_PERIODS < periods then { st with streak := 0 } else st
  if 0 < st1.streak then
    if periods = 1 then
      { st1 with periodTime := u16 (st1.periodTime * st1.streak + 2 * pulseTime) / (st1.streak + 2) }
    else st1
  else { st1 with periodTime := pulseTime }

/-- The interrupt service routine `isr()`.  `lowPulse` is the level read from
the paired pin; the result is `none` when the `periods` computation divides
by zero (`periodTime = 0`, see `periodsOf`). -/
def isr (now : Nat) (lowPulse : Bool) (st : CaptureState) : Option CaptureState :=
  let pulseTime := pulseTimeOf now st.lastTime
  match periodsOf pulseTime st.periodTime with
  | none => none
  | some periods =>
    let st1 := { st with lastTime := u16 now, duration := pulseTime, new_duration := true }
    let st2 := isrAppend periods st1
    some (if lowPulse then isrSync periods st2 else isrHigh periods pulseTime st2)

/-- `RFControl::startReceiving`: reset the capture session state; the message
buffer itself is not cleared.  `now0` is the current `hw_micros()` reading. -/
def startReceiving (now0 : Nat) (st : CaptureState) : CaptureState :=
  { st with lastTime := u16 (now0 / PULSE_LENGTH_DIVIDER), periodTime := 0,
            writer := 0, reader := 0, streak := 0 }

/-- `RFControl::hasData`: `writer != reader`. -/
def hasData (st : CaptureState) : Bool := st.writer != st.reader

/-- The data-skipping `while` loop of `continueReceiving`; the fuel 256
dominates the real iteration count because the byte-valued `reader` reaches
`writer` after at most 255 increments. -/
def skipLoop (msgbuf : Nat → Nat) (writer : Nat) : Nat → Nat → Nat
  | r, 0 => r
  | r, fuel + 1 =>
    if r ≠ writer ∧ msgbuf r ≤ MAX_PULSE_PERIODS then
      skipLoop msgbuf writer ((r + 1) % 256) fuel
    else r

/-- `RFControl::continueReceiving`: when a message is pending, advance
`reader` past the header, past all data slots (values `≤ MAX_PULSE_PERIODS`),
and past the trailing sync slot when `reader` has not reached `writer`. -/
def continueReceiving (st : CaptureState) : CaptureState :=
  if st.reader ≠ st.writer then
    let r2 := skipLoop st.msgbuf st.writer ((st.reader + 1) % 256) 256
    { st with reader := if r2 ≠ st.writer then (r2 + 1) % 256 else r2 }
  else st

/-- The unwinding loop of `getRaw`: while the next circular slot is neither
`writer` nor a sync (`> MAX_PULSE_PERIODS`) and the flat area has room, store
`pt * msgbuf[(byte)(reader+pos)]` at the flat index `reader + size`.  The
local `pos` always equals `size + 1`.  The loop reads only circular slots
`(reader + size + 1) % 256`, which its own flat writes at `reader + size`
never alias (the writes stay at indices `≥ reader` and strictly below the
read position when no wrap has occurred, and the wrapped read positions lie
strictly below `reader`), so it reads from the original buffer.  Fuel `maxs`
dominates the iteration count because `size` grows by 1 per iteration and
the loop requires `size < maxs`. -/
def grLoop (buf : Nat → Nat) (writer pt reader maxs : Nat) :
    (Nat → Nat) → Nat → Nat → (Nat → Nat) × Nat
  | out, size, 0 => (out, size)
  | out, size, fuel + 1 =>
    let p := (reader + size + 1) % 256
    if p ≠ writer ∧ buf p ≤ MAX_PULSE_PERIODS ∧ size < maxs then
      grLoop buf writer pt reader maxs
        (fun k => if k = reader + size then pt * buf p else out k) (size + 1) fuel
    else (out, size)

/-- `RFControl::getRaw` over a buffer of capacity `N` (`MAX_RECORDINGS`,
defined in the missing header; the source only requires it to exceed the
256-slot circular area).  Returns the final contents of `msgbuf` and the
reported `timings_size`; the unwound message starts at flat index `reader`.
Note the sync-inclusion test `reader + size + 1 ≠ writer` compares without
the byte cast, exactly as the source's `(reader+pos) != writer`. -/
def getRaw (N : Nat) (st : CaptureState) : (Nat → Nat) × Nat :=
  if st.reader ≠ st.writer then
    let maxs := N - st.reader
    let pt := st.msgbuf (st.reader % 256)
    let r := grLoop st.msgbuf st.writer pt st.reader maxs st.msgbuf 0 maxs
    if maxs ≤ r.2 then (r.1, 0)
    else if st.reader + r.2 + 1 ≠ st.writer then
      ((fun k => if k = st.reader + r.2 then pt * st.msgbuf ((st.reader + r.2 + 1) % 256) else r.1 k),
        r.2 + 1)
    else r
  else (st.msgbuf, 0)

/-- Length of the data run of the pending message: the number of consecutive
slots after the header that are neither `writer` nor sync markers.  Fuel 256
dominates as in `skipLoop`. -/
def runLenAux (buf : Nat → Nat) (writer reader : Nat) : Nat → Nat → Nat
  | j, 0 => j
  | j, fuel + 1 =>
    if (reader + 1 + j) % 256 ≠ writer ∧ buf ((reader + 1 + j) % 256) ≤ MAX_PULSE_PERIODS then
      runLenAux buf writer reader (j + 1) fuel
    else j

/-- See `runLenAux`. -/
def runLen (buf : Nat → Nat) (writer reader : Nat) : Nat :=
  runLenAux buf writer reader 0 256

/-- The `timings_size` that claim C8 attributes to `getRaw`, modelled from
the claim's words: 0 exactly when no message is pending or the unwound
message would not fit the remaining flat space; otherwise the data run plus
the trailing sync when one is present (the run stopped before `writer`). -/
def getRawClaimSize (N : Nat) (st : CaptureState) : Nat :=
  if st.reader = st.writer then 0
  else
    let n := runLen st.msgbuf st.writer st.reader
    if N - st.reader ≤ n then 0
    else if (st.reader + 1 + n) % 256 ≠ st.writer then n + 1 else n

/-- Number of committed (finalized, unconsumed) slots: the circular distance
from `reader` to `writer`. -/
def committedLen (st : CaptureState) : Nat := (st.writer + 256 - st.reader) % 256

/-- Slot `i` lies in the committed region between `reader` and `writer`. -/
def inCommitted (st : CaptureState) (i : Nat) : Prop :=
  (i + 256 - st.reader) % 256 < committedLen st

/-- Producer-side invariant of the capture state: the byte-valued fields are
in range and the in-progress streak fits in the free region (its next write
cursor `writer + streak` has not passed `reader`). -/
def CaptureInv (st : CaptureState) : Prop :=
  st.streak < 256 ∧ st.writer < 256 ∧ st.reader < 256 ∧
    (st.reader ≠ st.writer → st.streak ≤ (st.reader + 256 - st.writer) % 256)

/-- Consumer-side well-formedness, as capture always produces it: committed
messages are whole, so a non-empty committed region is at least two slots
long and ends with a sync marker just before `writer`. -/
def WFBuffer (st : CaptureState) : Prop :=
  st.reader < 256 ∧ st.writer < 256 ∧
    (st.reader ≠ st.writer →
      2 ≤ committedLen st ∧ MAX_PULSE_PERIODS < st.msgbuf ((st.writer + 255) % 256))

/-- Concrete state for the C4 counterexample: a message of 2 pulses is in
progress with period estimate 100 and a fresh single-period pulse of 110. -/
def ex4 : CaptureState :=
  { lastTime := 0, periodTime := 100, streak := 2, writer := 0, reader := 5,
    msgbuf := fun _ => 0, duration := 0, new_duration := false }

/-- Concrete state witnessing C5: 5 pulses captured, sync arrives. -/
def ex5 : CaptureState :=
  { lastTime := 0, periodTime := 100, streak := 5, writer := 0, reader := 0,
    msgbuf := fun _ => 0, duration := 0, new_duration := false }

/-- Concrete state witnessing C6. -/
def ex6 : CaptureState :=
  { lastTime := 0, periodTime := 100, streak := 3, writer := 10, reader := 200,
    msgbuf := fun _ => 0, duration := 0, new_duration := false }

/-- The state `isr 100 false ex6` produces. -/
def ex6' : CaptureState :=
  { lastTime := 100, periodTime := 100, streak := 4, writer := 10, reader := 200,
    msgbuf := fun k => if k = 13 then 1 else 0, duration := 100, new_duration := true }

/-- Concrete buffer witnessing C7: one message at slots 0–4 (header 100,
three data pulses, sync marker 25), writer at 5. -/
def ex7 : CaptureState :=
  { lastTime := 0, periodTime := 100, streak := 0, writer := 5, reader := 0,
    msgbuf := fun k => if k = 4 then 25 else if k = 0 then 100 else 2,
    duration := 0, new_duration := false }

/-- Concrete buffer for the C8 counterexample: the pending message wraps past
index 255 and abuts `writer` with no trailing sync slot (header 100 at slot
250, data slots 251–255 and 0–4, writer at 5). -/
def ex8 : CaptureState :=
  { lastTime := 0, periodTime := 100, streak := 0, writer := 5, reader := 250,
    msgbuf := fun k => if k = 250 then 100 else 1, duration := 0, new_duration := false }

/-- Concrete well-formed buffer witnessing C8: header 100 at slot 0, data
slots 1–18 with 2 periods each, sync marker 25 at slot 19, writer at 20. -/
def ex8w : CaptureState :=
  { lastTime := 0, periodTime := 100, streak := 0, writer := 20, reader := 0,
    msgbuf := fun k => if k = 0 then 100 else if k = 19 then 25 else 2,
    duration := 0, new_duration := false }

/-! ### General helper lemmas -/

theorem firstIdx_map {α β : Type} (f : α → β) (p : β → Bool) (xs : List α) :
    firstIdx p (xs.map f) = firstIdx (fun a => p (f a)) xs := by
  induction xs with
  | nil => rfl
  | cons x xs ih => by_cases hx : p (f x) <;> simp [firstIdx, hx, ih]

theorem firstIdx_append_zero (p : Nat → Bool) (hp : p 0 = true) (xs rest : List Nat) :
    firstIdx p (xs ++ 0 :: rest) = some ((firstIdx p xs).getD xs.length) := by
  induction xs with
  | nil => simp [firstIdx, hp]
  | cons x xs ih =>
    by_cases hx : p x
    · simp [firstIdx, hx]
    · simp only [List.cons_append, firstIdx, hx, Bool.false_eq_true, if_false,
        Option.map_some', List.length_cons]
      cases h : firstIdx p xs <;> simp [ih, h]

theorem firstIdx_lt_length {α : Type} (p : α → Bool) (xs : List α) (j : Nat)
    (h : firstIdx p xs = some j) : j < xs.length := by
  induction xs generalizing j with
  | nil => simp [firstIdx] at h
  | cons x xs ih =>
    by_cases hx : p x
    · simp [firstIdx, hx] at h
      subst h
      simp
    · simp only [firstIdx, hx, Bool.false_eq_true, if_false, Option.map_eq_some'] at h
      obtain ⟨i, hi, rfl⟩ := h
      simpa using Nat.succ_lt_succ (ih _ hi)

theorem set_append_len {α : Type} (xs : List α) (y : α) (ys : List α) (v : α) :
    (xs ++ y :: ys).set xs.length v = xs ++ v :: ys := by
  induction xs with
  | nil => rfl
  | cons x xs ih => simp [List.set_cons_succ, ih]

theorem getD_map_lt {α β : Type} (f : α → β) (xs : List α) (j : Nat)
    (h : j < xs.length) (d : β) (d' : α) :
    (xs.map f).getD j d = f (xs.getD j d') := by
  induction xs generalizing j with
  | nil => simp at h
  | cons x xs ih =>
    cases j with
    | zero => rfl
    | succ j => simpa using ih j (by simpa using h)

theorem set_getD_self {α : Type} (xs : List α) (j : Nat) (h : j < xs.length) (d : α) :
    xs.set j (xs.getD j d) = xs := by
  induction xs generalizing j with
  | nil => rfl
  | cons x xs ih =>
    cases j with
    | zero => rfl
    | succ j => simpa using ih j (by simpa using h)

/-! ### Claim C10 -/

/-- Claim C10: whenever `compressTimingsAndSortBuckets` returns false (more
than 8 classes needed), the timings array is left completely unmodified —
relabelling happens only in the second pass, which runs after the bucketing
pass has succeeded. -/
theorem ctsb_failure_leaves_timings_unmodified (ts : List Nat)
    (h : (compressTimingsAndSortBuckets ts).1 = false) :
    (compressTimingsAndSortBuckets ts).2.2 = ts := by
  by_cases hb : (ctsbAux initCT ts).1 <;>
    simp [compressTimingsAndSortBuckets, hb] at h ⊢

/-- Witness for C10 at a concrete failing input (9 well-separated widths). -/
theorem ctsb_failure_leaves_timings_unmodified_witness :
    (compressTimingsAndSortBuckets [10, 20, 40, 80, 160, 320, 640, 1280, 2560]).1 = false ∧
    (compressTimingsAndSortBuckets [10, 20, 40, 80, 160, 320, 640, 1280, 2560]).2.2 =
      [10, 20, 40, 80, 160, 320, 640, 1280, 2560] :=
  ⟨by decide, ctsb_failure_leaves_timings_unmodified _ (by decide)⟩

/-! ### Claim C3 -/

/-- Claim C3 fails on the code: on the input `[100,136,136,136,136,136,136,64]`
`compressTimingsAndSortBuckets` returns true, yet the relabelled timings end
with the raw duration 64 — not a bucket index (64 is not below 8) — because
the final mean 122 of the single bucket has tolerance band (77, 167), which
no longer contains 64, and the second pass silently leaves such a timing
unchanged.  Looking up `buckets[64]` is out of bounds, so the round-trip
property of the claim cannot hold. -/
theorem ctsb_relabel_not_self_consistent :
    compressTimingsAndSortBuckets [100, 136, 136, 136, 136, 136, 136, 64] =
      (true, [122, 0, 0, 0, 0, 0, 0, 0], [0, 0, 0, 0, 0, 0, 0, 64]) ∧
    ¬ (64 : Nat) < 8 ∧ fits 122 64 = false := by decide

/-! ### Claim C2 -/

/-- Claim C2 fails on the code at the input `[100, 130, 150]`: the class that
the claim's scan rule (first class whose current running mean is within the
±37.5 % band, means updated after each assignment — `compressTimingsClaim`)
assigns to 150 is class 0 (mean 115, band [73, 157]), but `compressTimings`
compares against the class's first value 100 (band (63, 137)) and opens a new
class instead. -/
theorem compressTimings_claim_false :
    (compressTimings [100, 130, 150]).2.2 = [0, 0, 1] ∧
    (compressTimingsClaim [100, 130, 150]).2.2 = [0, 0, 0] ∧
    (compressTimings [100, 130, 150]).2.2 ≠ (compressTimingsClaim [100, 130, 150]).2.2 := by
  decide

theorem padded_getD {k : Nat} (f : ClassAcc → Nat) (cs : List ClassAcc) (j : Nat)
    (hj : j < cs.length) :
    (cs.map f ++ List.replicate k 0).getD j 0 = f (cs.getD j ⟨0, 0, 0⟩) := by
  rw [List.getD_append _ _ _ _ (by simpa using hj), getD_map_lt _ _ _ hj _ ⟨0, 0, 0⟩]

theorem padded_getD_len (f : ClassAcc → Nat) (cs : List ClassAcc) (k : Nat) :
    (cs.map f ++ List.replicate (k + 1) 0).getD cs.length 0 = 0 := by
  rw [List.getD_append_right _ _ _ _ (by simp), List.length_map]
  simp

theorem padded_set_lt (f : ClassAcc → Nat) (cs : List ClassAcc) (j : Nat)
    (hj : j < cs.length) (c' : ClassAcc) (k : Nat) :
    (cs.map f ++ List.replicate k 0).set j (f c') =
      (cs.set j c').map f ++ List.replicate k 0 := by
  rw [List.set_append, if_pos (by simpa using hj), List.map_set]

theorem padded_set_len (f : ClassAcc → Nat) (cs : List ClassAcc) (c' : ClassAcc) (k : Nat) :
    (cs.map f ++ List.replicate (k + 1) 0).set cs.length (f c') =
      (cs ++ [c']).map f ++ List.replicate k 0 := by
  rw [List.replicate_succ, show cs.length = (cs.map f).length from (List.length_map _ _).symm,
    set_append_len, List.map_append]
  simp

theorem set_append_len' {α : Type} (xs : List α) (y : α) (ys : List α) (v : α) (n : Nat)
    (hn : n = xs.length) : (xs ++ y :: ys).set n v = xs ++ v :: ys := by
  subst hn
  exact set_append_len xs y ys v

theorem padded_set_all (cs : List ClassAcc) (j : Nat) (hj : j < cs.length) (c' : ClassAcc)
    (f : ClassAcc → Nat) (v' : Nat) (hv : f c' = v') :
    (cs.map f ++ List.replicate (8 - cs.length) 0).set j v' =
      (cs.set j c').map f ++ List.replicate (8 - (cs.set j c').length) 0 := by
  subst hv
  rw [List.length_set, List.set_append, if_pos (by simpa using hj), List.map_set]

theorem padded_append_all (cs : List ClassAcc) (c' : ClassAcc) (h8 : cs.length < 8)
    (f : ClassAcc → Nat) (v' : Nat) (hv : f c' = v') :
    (cs.map f ++ List.replicate (8 - cs.length) 0).set cs.length v' =
      (cs ++ [c']).map f ++ List.replicate (8 - (cs ++ [c']).length) 0 := by
  subst hv
  rw [show 8 - cs.length = (8 - cs.length - 1) + 1 from by omega, List.replicate_succ,
    set_append_len' _ _ _ _ _ (by simp)]
  simp [Nat.sub_sub]

theorem padded_unset (cs : List ClassAcc) (j : Nat) (hj : j < cs.length) (c' : ClassAcc)
    (f : ClassAcc → Nat) (hv : f c' = f (cs.getD j ⟨0, 0, 0⟩)) :
    cs.map f ++ List.replicate (8 - cs.length) 0 =
      (cs.set j c').map f ++ List.replicate (8 - (cs.set j c').length) 0 := by
  rw [List.length_set, List.map_set, hv,
    show f (cs.getD j ⟨0, 0, 0⟩) = (cs.map f).getD j 0 from (getD_map_lt _ _ _ hj _ _).symm,
    set_getD_self _ _ (by simpa using hj)]

theorem ctStep_amended_rel (s : CTState) (cs : List ClassAcc) (v : Nat) (hrel : RelCT s cs) :
    (ctStep s v = none ∧ ctStepAmended cs v = none) ∨
    (∃ s' cs' j, ctStep s v = some (s', j) ∧ ctStepAmended cs v = some (cs', j) ∧
      RelCT s' cs') := by
  obtain ⟨hb, hs, hc, hlen, hcnt⟩ := hrel
  obtain ⟨sb, ss, sc⟩ := s
  simp only at hb hs hc
  subst hb hs hc
  rcases hq : firstIdx (fun c => c.ref == 0 || fits c.ref v) cs with _ | j
  · by_cases h8 : cs.length < 8
    · right
      have hk : 8 - cs.length = (8 - cs.length - 1) + 1 := by omega
      have hfi : firstIdx (fun r => r == 0 || fits r v)
          (cs.map ClassAcc.ref ++ List.replicate (8 - cs.length) 0) = some cs.length := by
        rw [hk, List.replicate_succ, firstIdx_append_zero _ (by simp) _ _,
          List.length_map, firstIdx_map, hq]
        rfl
      have hgb0 : (cs.map ClassAcc.ref ++ List.replicate (8 - cs.length) 0).getD cs.length 0
          = 0 := by rw [hk, padded_getD_len]
      have hgs0 : (cs.map ClassAcc.sum ++ List.replicate (8 - cs.length) 0).getD cs.length 0
          = 0 := by rw [hk, padded_getD_len]
      have hgc0 : (cs.map ClassAcc.cnt ++ List.replicate (8 - cs.length) 0).getD cs.length 0
          = 0 := by rw [hk, padded_getD_len]
      refine ⟨⟨(cs ++ [(⟨v, u32 v, 1⟩ : ClassAcc)]).map ClassAcc.ref ++
          List.replicate (8 - (cs ++ [(⟨v, u32 v, 1⟩ : ClassAcc)]).length) 0,
        (cs ++ [(⟨v, u32 v, 1⟩ : ClassAcc)]).map ClassAcc.sum ++
          List.replicate (8 - (cs ++ [(⟨v, u32 v, 1⟩ : ClassAcc)]).length) 0,
        (cs ++ [(⟨v, u32 v, 1⟩ : ClassAcc)]).map ClassAcc.cnt ++
          List.replicate (8 - (cs ++ [(⟨v, u32 v, 1⟩ : ClassAcc)]).length) 0⟩,
        cs ++ [(⟨v, u32 v, 1⟩ : ClassAcc)], cs.length, ?_, ?_, ?_⟩
      · simp only [ctStep, hfi, hgb0, hgs0, hgc0, Nat.zero_add, beq_self_eq_true, if_true]
        rw [padded_append_all cs (⟨v, u32 v, 1⟩ : ClassAcc) h8 ClassAcc.ref v rfl,
          padded_append_all cs (⟨v, u32 v, 1⟩ : ClassAcc) h8 ClassAcc.sum (u32 v) rfl,
          padded_append_all cs (⟨v, u32 v, 1⟩ : ClassAcc) h8 ClassAcc.cnt 1 rfl]
      · simp only [ctStepAmended, hq, if_pos h8]
      · refine ⟨rfl, rfl, rfl, by simp; omega, ?_⟩
        intro c hmem
        rcases List.mem_append.1 hmem with hmem | hmem
        · exact hcnt c hmem
        · simp at hmem
          subst hmem
          simp
    · left
      have h0 : 8 - cs.length = 0 := by omega
      constructor
      · simp only [ctStep, h0, List.replicate_zero, List.append_nil, firstIdx_map, hq]
      · simp only [ctStepAmended, hq]
        rw [if_neg h8]
  · right
    have hj : j < cs.length := firstIdx_lt_length _ _ _ hq
    have hfi : firstIdx (fun r => r == 0 || fits r v)
        (cs.map ClassAcc.ref ++ List.replicate (8 - cs.length) 0) = some j := by
      by_cases h8 : cs.length < 8
      · rw [show 8 - cs.length = (8 - cs.length - 1) + 1 from by omega, List.replicate_succ,
          firstIdx_append_zero _ (by simp) _ _, List.length_map, firstIdx_map, hq]
        rfl
      · rw [show 8 - cs.length = 0 from by omega, List.replicate_zero, List.append_nil,
          firstIdx_map, hq]
    have hgb : (cs.map ClassAcc.ref ++ List.replicate (8 - cs.length) 0).getD j 0 =
        (cs.getD j ⟨0, 0, 0⟩).ref := padded_getD _ _ _ hj
    have hgs : (cs.map ClassAcc.sum ++ List.replicate (8 - cs.length) 0).getD j 0 =
        (cs.getD j ⟨0, 0, 0⟩).sum := padded_getD _ _ _ hj
    have hgc : (cs.map ClassAcc.cnt ++ List.replicate (8 - cs.length) 0).getD j 0 =
        (cs.getD j ⟨0, 0, 0⟩).cnt := padded_getD _ _ _ hj
    by_cases hr0 : (cs.getD j ⟨0, 0, 0⟩).ref = 0
    · refine ⟨⟨(cs.set j ⟨v, u32 ((cs.getD j ⟨0, 0, 0⟩).sum + v),
            (cs.getD j ⟨0, 0, 0⟩).cnt + 1⟩).map ClassAcc.ref ++
          List.replicate (8 - (cs.set j ⟨v, u32 ((cs.getD j ⟨0, 0, 0⟩).sum + v),
            (cs.getD j ⟨0, 0, 0⟩).cnt + 1⟩).length) 0,
        (cs.set j ⟨v, u32 ((cs.getD j ⟨0, 0, 0⟩).sum + v),
            (cs.getD j ⟨0, 0, 0⟩).cnt + 1⟩).map ClassAcc.sum ++
          List.replicate (8 - (cs.set j ⟨v, u32 ((cs.getD j ⟨0, 0, 0⟩).sum + v),
            (cs.getD j ⟨0, 0, 0⟩).cnt + 1⟩).length) 0,
        (cs.set j ⟨v, u32 ((cs.getD j ⟨0, 0, 0⟩).sum + v),
            (cs.getD j ⟨0, 0, 0⟩).cnt + 1⟩).map ClassAcc.cnt ++
          List.replicate (8 - (cs.set j ⟨v, u32 ((cs.getD j ⟨0, 0, 0⟩).sum + v),
            (cs.getD j ⟨0, 0, 0⟩).cnt + 1⟩).length) 0⟩,
        cs.set j ⟨v, u32 ((cs.getD j ⟨0, 0, 0⟩).sum + v), (cs.getD j ⟨0, 0, 0⟩).cnt + 1⟩,
        j, ?_, ?_, ?_⟩
      · simp only [ctStep, hfi, hgb, hgs, hgc, hr0, beq_self_eq_true, if_true]
        rw [padded_set_all cs j hj
            (⟨v, u32 ((cs.getD j ⟨0, 0, 0⟩).sum + v), (cs.getD j ⟨0, 0, 0⟩).cnt + 1⟩ : ClassAcc)
            ClassAcc.ref v rfl,
          padded_set_all cs j hj
            (⟨v, u32 ((cs.getD j ⟨0, 0, 0⟩).sum + v), (cs.getD j ⟨0, 0, 0⟩).cnt + 1⟩ : ClassAcc)
            ClassAcc.sum _ rfl,
          padded_set_all cs j hj
            (⟨v, u32 ((cs.getD j ⟨0, 0, 0⟩).sum + v), (cs.getD j ⟨0, 0, 0⟩).cnt + 1⟩ : ClassAcc)
            ClassAcc.cnt _ rfl]
      · simp only [ctStepAmended, hq, hr0, beq_self_eq_true, if_true]
      · refine ⟨rfl, rfl, rfl, by simpa using hlen, ?_⟩
        intro c hmem
        rcases List.mem_or_eq_of_mem_set hmem with hmem | hmem
        · exact hcnt c hmem
        · subst hmem
          simp
    · refine ⟨⟨(cs.set j ⟨(cs.getD j ⟨0, 0, 0⟩).ref, u32 ((cs.getD j ⟨0, 0, 0⟩).sum + v),
            (cs.getD j ⟨0, 0, 0⟩).cnt + 1⟩).map ClassAcc.ref ++
          List.replicate (8 - (cs.set j ⟨(cs.getD j ⟨0, 0, 0⟩).ref,
            u32 ((cs.getD j ⟨0, 0, 0⟩).sum + v), (cs.getD j ⟨0, 0, 0⟩).cnt + 1⟩).length) 0,
        (cs.set j ⟨(cs.getD j ⟨0, 0, 0⟩).ref, u32 ((cs.getD j ⟨0, 0, 0⟩).sum + v),
            (cs.getD j ⟨0, 0, 0⟩).cnt + 1⟩).map ClassAcc.sum ++
          List.replicate (8 - (cs.set j ⟨(cs.getD j ⟨0, 0, 0⟩).ref,
            u32 ((cs.getD j ⟨0, 0, 0⟩).sum + v), (cs.getD j ⟨0, 0, 0⟩).cnt + 1⟩).length) 0,
        (cs.set j ⟨(cs.getD j ⟨0, 0, 0⟩).ref, u32 ((cs.getD j ⟨0, 0, 0⟩).sum + v),
            (cs.getD j ⟨0, 0, 0⟩).cnt + 1⟩).map ClassAcc.cnt ++
          List.replicate (8 - (cs.set j ⟨(cs.getD j ⟨0, 0, 0⟩).ref,
            u32 ((cs.getD j ⟨0, 0, 0⟩).sum + v), (cs.getD j ⟨0, 0, 0⟩).cnt + 1⟩).length) 0⟩,
        cs.set j ⟨(cs.getD j ⟨0, 0, 0⟩).ref, u32 ((cs.getD j ⟨0, 0, 0⟩).sum + v),
          (cs.getD j ⟨0, 0, 0⟩).cnt + 1⟩,
        j, ?_, ?_, ?_⟩
      · simp only [ctStep, hfi, hgb, hgs, hgc]
        rw [if_neg (by simpa using hr0)]
        rw [padded_set_all cs j hj
            (⟨(cs.getD j ⟨0, 0, 0⟩).ref, u32 ((cs.getD j ⟨0, 0, 0⟩).sum + v),
              (cs.getD j ⟨0, 0, 0⟩).cnt + 1⟩ : ClassAcc) ClassAcc.sum _ rfl,
          padded_set_all cs j hj
            (⟨(cs.getD j ⟨0, 0, 0⟩).ref, u32 ((cs.getD j ⟨0, 0, 0⟩).sum + v),
              (cs.getD j ⟨0, 0, 0⟩).cnt + 1⟩ : ClassAcc) ClassAcc.cnt _ rfl,
          padded_unset cs j hj
            (⟨(cs.getD j ⟨0, 0, 0⟩).ref, u32 ((cs.getD j ⟨0, 0, 0⟩).sum + v),
              (cs.getD j ⟨0, 0, 0⟩).cnt + 1⟩ : ClassAcc) ClassAcc.ref rfl]
      · simp only [ctStepAmended, hq]
        rw [if_neg (by simpa using hr0)]
      · refine ⟨rfl, rfl, rfl, by simpa using hlen, ?_⟩
        intro c hmem
        rcases List.mem_or_eq_of_mem_set hmem with hmem | hmem
        · exact hcnt c hmem
        · subst hmem
          simp

theorem ctAux_amended_rel (ts : List Nat) (s : CTState) (cs : List ClassAcc)
    (hrel : RelCT s cs) :
    (ctAux s ts).1 = (ctAuxAmended cs ts).1 ∧
    RelCT (ctAux s ts).2.1 (ctAuxAmended cs ts).2.1 ∧
    (ctAux s ts).2.2 = (ctAuxAmended cs ts).2.2 := by
  induction ts generalizing s cs with
  | nil => exact ⟨rfl, hrel, rfl⟩
  | cons v vs ih =>
    rcases ctStep_amended_rel s cs v hrel with ⟨h1, h2⟩ | ⟨s', cs', j, h1, h2, hrel'⟩
    · simp only [ctAux, ctAuxAmended, h1, h2]
      refine ⟨by trivial, hrel, by trivial⟩
    · obtain ⟨e1, e2, e3⟩ := ih s' cs' hrel'
      simp only [ctAux, ctAuxAmended, h1, h2]
      exact ⟨e1, e2, by rw [e3]⟩

theorem finalizeBuckets_replicate (k : Nat) :
    finalizeBuckets (List.replicate k 0) (List.replicate k 0) (List.replicate k 0) =
      List.replicate k 0 := by
  induction k with
  | zero => rfl
  | succ k ih => simp [List.replicate_succ, finalizeBuckets, ih]

theorem finalizeBuckets_rel (cs : List ClassAcc) (k : Nat) (h : ∀ c ∈ cs, c.cnt ≠ 0) :
    finalizeBuckets (cs.map ClassAcc.ref ++ List.replicate k 0)
      (cs.map ClassAcc.sum ++ List.replicate k 0)
      (cs.map ClassAcc.cnt ++ List.replicate k 0) =
    cs.map (fun c => u16 (c.sum / c.cnt)) ++ List.replicate k 0 := by
  induction cs with
  | nil => simpa using finalizeBuckets_replicate k
  | cons c cs ih =>
    simp only [List.map_cons, List.cons_append, finalizeBuckets]
    rw [if_pos (h c (by simp))]
    simp only [List.append_eq]
    rw [ih (fun c' hc' => h c' (by simp [hc']))]

/-- Claim C2 as amended: `compressTimings` assigns each duration to the first
of the 8 slots, scanned in index order, that is empty (reference value 0,
which the duration then re-opens, becoming its new reference) or whose
*reference value* — the duration that opened the slot, not the running mean —
strictly contains the duration in the open band
`(ref - (ref/4 + ref/8), ref + (ref/4 + ref/8))`; each assignment updates
only the slot's running sum and count, and the reported bucket means
`sum/count` are computed once after the whole pass; it returns false exactly
when no slot fits a duration and all 8 slots are occupied.  Stated as
equivalence with `compressTimingsAmended`, which implements exactly that
description over a growing class list. -/
theorem compressTimings_eq_amended (ts : List Nat) :
    compressTimings ts = compressTimingsAmended ts := by
  have hinit : RelCT initCT [] := ⟨by simp [initCT], by simp [initCT], by simp [initCT],
    by simp, by simp⟩
  obtain ⟨e1, e2, e3⟩ := ctAux_amended_rel ts initCT [] hinit
  obtain ⟨hb, hs, hc, hlen, hcnt⟩ := e2
  by_cases hok : (ctAux initCT ts).1 = true
  · have hok' : (ctAuxAmended [] ts).1 = true := by rw [← e1]; exact hok
    simp only [compressTimings, compressTimingsAmended, hok, hok', if_true]
    rw [hb, hs, hc, finalizeBuckets_rel _ _ hcnt, e3]
  · have hok' : ¬ (ctAuxAmended [] ts).1 = true := by rw [← e1]; exact hok
    simp only [compressTimings, compressTimingsAmended, if_neg hok, if_neg hok']
    rw [hb, e3]

theorem bpassFrom_length (a : Nat) (l : List Nat) :
    (bpassFrom a l).length = l.length + 1 := by
  induction l generalizing a with
  | nil => rfl
  | cons b t ih =>
    by_cases hba : b < a <;> simp [bpassFrom, hba, ih]

theorem bpass_length (l : List Nat) : (bpass l).length = l.length := by
  cases l with
  | nil => rfl
  | cons a t => simp [bpass, bpassFrom_length]

theorem mem_bpassFrom (x a : Nat) (l : List Nat) (h : x ∈ bpassFrom a l) :
    x = a ∨ x ∈ l := by
  induction l generalizing a with
  | nil => simpa [bpassFrom] using h
  | cons b t ih =>
    by_cases hba : b < a
    · simp only [bpassFrom, hba, if_true, List.mem_cons] at h
      rcases h with h | h
      · simp [h]
      · rcases ih a h with h | h
        · exact Or.inl h
        · simp [h]
    · simp only [bpassFrom, hba, if_false, List.mem_cons] at h
      rcases h with h | h
      · exact Or.inl h
      · rcases ih b h with h | h
        · simp [h]
        · simp [h]

theorem mem_bpass (x : Nat) (l : List Nat) (h : x ∈ bpass l) : x ∈ l := by
  cases l with
  | nil => simp [bpass] at h
  | cons a t =>
    rcases mem_bpassFrom x a t h with h | h
    · simp [h]
    · simp [h]

theorem bpassFrom_last (a : Nat) (l : List Nat) :
    ∃ l' m, bpassFrom a l = l' ++ [m] ∧ ∀ x, x ∈ a :: l → x ≤ m := by
  induction l generalizing a with
  | nil =>
    refine ⟨[], a, rfl, ?_⟩
    intro x hx
    simp at hx
    omega
  | cons b t ih =>
    by_cases hba : b < a
    · obtain ⟨l', m, he, hb⟩ := ih a
      refine ⟨b :: l', m, by simp [bpassFrom, hba, he], ?_⟩
      intro x hx
      rcases List.mem_cons.1 hx with h1 | hx2
      · subst h1
        exact hb x (by simp)
      · rcases List.mem_cons.1 hx2 with h2 | hx3
        · subst h2
          have := hb a (by simp)
          omega
        · exact hb x (by simp [hx3])
    · obtain ⟨l', m, he, hb⟩ := ih b
      refine ⟨a :: l', m, by simp [bpassFrom, hba, he], ?_⟩
      intro x hx
      rcases List.mem_cons.1 hx with h1 | hx2
      · subst h1
        have := hb b (by simp)
        omega
      · rcases List.mem_cons.1 hx2 with h2 | hx3
        · subst h2
          exact hb x (by simp)
        · exact hb x (by simp [hx3])

theorem bpass_last (l : List Nat) (hne : l ≠ []) :
    ∃ l' m, bpass l = l' ++ [m] ∧ ∀ x ∈ l, x ≤ m := by
  cases l with
  | nil => exact absurd rfl hne
  | cons a t =>
    obtain ⟨l', m, he, hb⟩ := bpassFrom_last a t
    exact ⟨l', m, he, fun x hx => hb x hx⟩

theorem bpassFrom_append_max (a : Nat) (l : List Nat) (m : Nat)
    (h : ∀ x ∈ a :: l, x ≤ m) :
    bpassFrom a (l ++ [m]) = bpassFrom a l ++ [m] := by
  induction l generalizing a with
  | nil =>
    have ha : a ≤ m := h a (by simp)
    simp only [List.nil_append, bpassFrom]
    rw [if_neg (by omega)]
    rfl
  | cons b t ih =>
    by_cases hba : b < a
    · have := ih a (fun x hx => by
        rcases List.mem_cons.1 hx with rfl | hx
        · exact h x (by simp)
        · exact h x (by simp [hx]))
      simp [bpassFrom, hba, this]
    · have := ih b (fun x hx => by
        rcases List.mem_cons.1 hx with rfl | hx
        · exact h x (by simp)
        · exact h x (by simp [hx]))
      simp [bpassFrom, hba, this]

theorem bpass_append_max (l : List Nat) (m : Nat) (h : ∀ x ∈ l, x ≤ m) :
    bpass (l ++ [m]) = bpass l ++ [m] := by
  cases l with
  | nil => rfl
  | cons a t => exact bpassFrom_append_max a t m h

theorem iterate_bpass_append_max (n : Nat) (l : List Nat) (m : Nat)
    (h : ∀ x ∈ l, x ≤ m) : bpass^[n] (l ++ [m]) = bpass^[n] l ++ [m] := by
  induction n generalizing l with
  | zero => simp
  | succ n ih =>
    rw [Function.iterate_succ_apply, Function.iterate_succ_apply, bpass_append_max l m h,
      ih (bpass l) (fun x hx => h x (mem_bpass x l hx))]

theorem mem_iterate_bpass (n : Nat) (l : List Nat) (x : Nat)
    (h : x ∈ bpass^[n] l) : x ∈ l := by
  induction n generalizing l with
  | zero => simpa using h
  | succ n ih =>
    rw [Function.iterate_succ_apply] at h
    exact mem_bpass x l (ih (bpass l) h)

theorem length_iterate_bpass (n : Nat) (l : List Nat) :
    (bpass^[n] l).length = l.length := by
  induction n generalizing l with
  | zero => simp
  | succ n ih => rw [Function.iterate_succ_apply, ih, bpass_length]

theorem sorted_iterate_bpass (n : Nat) (l : List Nat) (h : l.length ≤ n + 1) :
    List.Sorted (· ≤ ·) (bpass^[n] l) := by
  induction n generalizing l with
  | zero =>
    cases l with
    | nil => simp
    | cons a t =>
      cases t with
      | nil => simp
      | cons b t' => simp at h
  | succ n ih =>
    cases l with
    | nil => simp [Function.iterate_fixed (show bpass [] = [] from rfl)]
    | cons a t =>
      obtain ⟨l', m, he, hb⟩ := bpass_last (a :: t) (by simp)
      rw [Function.iterate_succ_apply, he]
      have hmem : ∀ x ∈ l', x ≤ m := by
        intro x hx
        exact hb x (mem_bpass x (a :: t) (by simp [he, hx]))
      rw [iterate_bpass_append_max n l' m hmem]
      have hlen : l'.length ≤ n + 1 := by
        have h1 : (bpass (a :: t)).length = t.length + 1 := by
          simpa using bpass_length (a :: t)
        rw [he] at h1
        simp at h1
        simp at h
        omega
      rw [List.Sorted, List.pairwise_append]
      refine ⟨ih l' hlen, by simp, ?_⟩
      intro x hx y hy
      simp at hy
      subst hy
      exact hmem x (mem_iterate_bpass n l' x hx)

theorem sort8_sorted (l : List Nat) (h : l.length ≤ 8) :
    List.Sorted (· ≤ ·) (sort8 l) :=
  sorted_iterate_bpass 8 l (by omega)

theorem sort8_length (l : List Nat) : (sort8 l).length = l.length :=
  length_iterate_bpass 8 l

theorem getD_replicate_zero (n i : Nat) : (List.replicate n (0 : Nat)).getD i 0 = 0 := by
  induction n generalizing i with
  | zero => rfl
  | succ n ih =>
    cases i with
    | zero => rfl
    | succ i => simpa [List.replicate_succ] using ih i

theorem getD_mem {α : Type} (l : List α) (j : Nat) (d : α) (h : j < l.length) :
    l.getD j d ∈ l := by
  induction l generalizing j with
  | nil => simp at h
  | cons x xs ih =>
    cases j with
    | zero => simp
    | succ j =>
      simp only [List.getD_cons_succ]
      exact List.mem_cons_of_mem x (ih j (by simpa using h))

theorem sorted_getD_mono (l : List Nat) (hs : List.Sorted (· ≤ ·) l) (i j : Nat)
    (hij : i ≤ j) (hj : j < l.length) : l.getD i 0 ≤ l.getD j 0 := by
  induction l generalizing i j with
  | nil => simp at hj
  | cons x xs ih =>
    rcases List.sorted_cons.1 hs with ⟨hx, hxs⟩
    cases i with
    | zero =>
      cases j with
      | zero => simp
      | succ j =>
        simp only [List.getD_cons_zero, List.getD_cons_succ]
        exact hx _ (getD_mem xs j 0 (by simpa using hj))
    | succ i =>
      cases j with
      | zero => omega
      | succ j =>
        simp only [List.getD_cons_succ]
        exact ih hxs i j (by omega) (by simpa using hj)

theorem firstIdx_spec {α : Type} (p : α → Bool) (xs : List α) (j : Nat) (d : α)
    (h : firstIdx p xs = some j) :
    p (xs.getD j d) = true ∧ ∀ i, i < j → p (xs.getD i d) = false := by
  induction xs generalizing j with
  | nil => simp [firstIdx] at h
  | cons x xs ih =>
    by_cases hx : p x
    · simp only [firstIdx, hx, if_true, Option.some.injEq] at h
      subst h
      exact ⟨hx, by omega⟩
    · simp only [firstIdx, hx, Bool.false_eq_true, if_false, Option.map_eq_some'] at h
      obtain ⟨i, hi, rfl⟩ := h
      obtain ⟨h1, h2⟩ := ih i hi
      refine ⟨h1, ?_⟩
      intro k hk
      cases k with
      | zero => simpa using hx
      | succ k => exact h2 k (by omega)

theorem firstIdx_none {α : Type} (p : α → Bool) (xs : List α)
    (h : firstIdx p xs = none) : ∀ x ∈ xs, p x = false := by
  induction xs with
  | nil => simp
  | cons x xs ih =>
    by_cases hx : p x
    · simp [firstIdx, hx] at h
    · intro y hy
      rcases List.mem_cons.1 hy with h1 | h1
      · subst h1
        simpa using hx
      · simp only [firstIdx, hx, Bool.false_eq_true, if_false, Option.map_eq_none'] at h
        exact ih h y h1

theorem take_zeros (b : List Nat) (f : Nat) (hf : f ≤ b.length)
    (h : ∀ i, i < f → b.getD i 0 = 0) : b.take f = List.replicate f 0 := by
  induction b generalizing f with
  | nil => simp at hf; subst hf; rfl
  | cons x xs ih =>
    cases f with
    | zero => rfl
    | succ f =>
      have hx : x = 0 := by simpa using h 0 (by omega)
      subst hx
      rw [List.take_succ_cons, List.replicate_succ,
        ih f (by simpa using hf) (fun i hi => by simpa using h (i + 1) (by omega))]

theorem replicate_zero_shift (k : Nat) (t : List Nat) :
    List.replicate k (0 : Nat) ++ 0 :: t = 0 :: (List.replicate k 0 ++ t) := by
  induction k with
  | zero => rfl
  | succ k ih => simp [List.replicate_succ, ih]

theorem compactAux_zero_run (t pre : List Nat) :
    compactAux (pre ++ t) pre.length pre.length t.length =
      pre ++ List.replicate t.length 0 := by
  induction t generalizing pre with
  | nil => simp [compactAux]
  | cons h t ih =>
    have e : copyStep (pre ++ h :: t) pre.length pre.length = (pre ++ [0]) ++ t := by
      unfold copyStep
      rw [List.getD_append_right _ _ _ _ (Nat.le_refl _), Nat.sub_self, List.getD_cons_zero,
        set_append_len' _ _ _ _ _ rfl, set_append_len' _ _ _ _ _ rfl]
      simp
    simp only [List.length_cons]
    rw [compactAux, e, show pre.length + 1 = (pre ++ [0]).length by simp]
    rw [ih (pre ++ [0])]
    simp [List.replicate_succ]

theorem compactAux_shift (t : List Nat) (k : Nat) (pre : List Nat) :
    compactAux (pre ++ (List.replicate (k + 1) 0 ++ t)) pre.length (pre.length + (k + 1))
      t.length = pre ++ t ++ List.replicate (k + 1) 0 := by
  induction t generalizing pre with
  | nil => simp [compactAux]
  | cons h t ih =>
    have e : copyStep (pre ++ (List.replicate (k + 1) 0 ++ h :: t)) pre.length
        (pre.length + (k + 1)) = (pre ++ [h]) ++ (List.replicate (k + 1) 0 ++ t) := by
      unfold copyStep
      have hg : (pre ++ (List.replicate (k + 1) 0 ++ h :: t)).getD (pre.length + (k + 1)) 0
          = h := by
        rw [List.getD_append_right _ _ _ _ (by omega), Nat.add_sub_cancel_left,
          List.getD_append_right _ _ _ _ (by simp), List.length_replicate, Nat.sub_self,
          List.getD_cons_zero]
      rw [hg, List.replicate_succ, List.set_append, if_neg (by omega), Nat.sub_self,
        List.cons_append, List.set_cons_zero]
      rw [show pre ++ h :: (List.replicate k 0 ++ h :: t)
            = (pre ++ h :: List.replicate k 0) ++ h :: t by simp,
        set_append_len' (pre ++ h :: List.replicate k 0) h t 0 (pre.length + (k + 1))
          (by simp [Nat.add_comm])]
      simp [replicate_zero_shift]
    simp only [List.length_cons]
    rw [compactAux, e, show pre.length + 1 = (pre ++ [h]).length by simp,
      show pre.length + (k + 1) + 1 = (pre ++ [h]).length + (k + 1) by
        simp only [List.length_append, List.length_cons, List.length_nil]
        omega]
    rw [ih (pre ++ [h])]
    simp

theorem compact_canonical (b : List Nat) (hlen : b.length = 8)
    (hsort : List.Sorted (· ≤ ·) b) :
    ∃ k, k ≤ 8 ∧
      (∀ i, i < k → (compact b).getD i 0 ≠ 0) ∧
      (∀ i, k ≤ i → (compact b).getD i 0 = 0) ∧
      (∀ i j, i ≤ j → j < k → (compact b).getD i 0 ≤ (compact b).getD j 0) := by
  rcases hfi : firstIdx (fun x => x != 0) b with _ | f
  · have hc : compact b = List.replicate 8 0 := by
      unfold compact
      rw [hfi]
      show compactAux b 0 0 (8 - 0) = List.replicate 8 0
      rw [Nat.sub_zero]
      have h2 := compactAux_zero_run b []
      simp only [List.nil_append, List.length_nil] at h2
      rw [hlen] at h2
      exact h2
    refine ⟨0, by omega, by intro i hi; omega, ?_, by intro i j hij hj; omega⟩
    intro i _
    rw [hc]
    exact getD_replicate_zero 8 i
  · have hflt : f < 8 := by
      have := firstIdx_lt_length _ _ _ hfi
      omega
    obtain ⟨hpf, hbefore⟩ := firstIdx_spec (fun x => x != 0) b f 0 hfi
    have hzeros : ∀ i, i < f → b.getD i 0 = 0 := by
      intro i hi
      simpa using hbefore i hi
    have hfnz : b.getD f 0 ≠ 0 := by simpa using hpf
    have hnon : ∀ i, f ≤ i → i < 8 → b.getD i 0 ≠ 0 := by
      intro i hfi' hi8
      have := sorted_getD_mono b hsort f i hfi' (by omega)
      omega
    have hsplit : b = List.replicate f 0 ++ b.drop f := by
      conv_lhs => rw [← List.take_append_drop f b]
      rw [take_zeros b f (by omega) hzeros]
    have hclen : (b.drop f).length = 8 - f := by simp [hlen]
    have hcget : ∀ i, (b.drop f).getD i 0 = b.getD (f + i) 0 := by
      intro i
      rw [List.getD_eq_getElem?_getD, List.getElem?_drop, ← List.getD_eq_getElem?_getD]
    rcases Nat.eq_zero_or_pos f with hf0 | hfpos
    · subst hf0
      have hc : compact b = List.replicate 8 0 := by
        unfold compact
        rw [hfi]
        show compactAux b 0 0 (8 - 0) = List.replicate 8 0
        rw [Nat.sub_zero]
        have h2 := compactAux_zero_run b []
        simp only [List.nil_append, List.length_nil] at h2
        rw [hlen] at h2
        exact h2
      refine ⟨0, by omega, by intro i hi; omega, ?_, by intro i j hij hj; omega⟩
      intro i _
      rw [hc]
      exact getD_replicate_zero 8 i
    · obtain ⟨k', rfl⟩ : ∃ k', f = k' + 1 := ⟨f - 1, by omega⟩
      have hc : compact b = b.drop (k' + 1) ++ List.replicate (k' + 1) 0 := by
        unfold compact
        rw [hfi]
        conv_lhs => rw [hsplit]
        show compactAux (List.replicate (k' + 1) 0 ++ b.drop (k' + 1)) 0 (k' + 1)
          (8 - (k' + 1)) = b.drop (k' + 1) ++ List.replicate (k' + 1) 0
        have h2 := compactAux_shift (b.drop (k' + 1)) k' []
        simp only [List.nil_append, List.length_nil, Nat.zero_add] at h2
        rw [show 8 - (k' + 1) = (b.drop (k' + 1)).length from by omega]
        exact h2
      refine ⟨8 - (k' + 1), by omega, ?_, ?_, ?_⟩
      · intro i hi
        rw [hc, List.getD_append _ _ _ _ (by omega), hcget]
        exact hnon (k' + 1 + i) (by omega) (by omega)
      · intro i hi
        rw [hc]
        by_cases hi8 : i < 8
        · rw [List.getD_append_right _ _ _ _ (by omega)]
          exact getD_replicate_zero _ _
        · rw [List.getD_eq_default]
          simp only [List.length_append, List.length_replicate, hclen]
          omega
      · intro i j hij hj
        rw [hc, List.getD_append _ _ _ _ (by omega), List.getD_append _ _ _ _ (by omega),
          hcget, hcget]
        exact sorted_getD_mono b hsort _ _ (by omega) (by omega)

theorem ctStep_lengths (s s' : CTState) (v j : Nat) (h : ctStep s v = some (s', j)) :
    s'.buckets.length = s.buckets.length ∧ s'.sums.length = s.sums.length ∧
      s'.counts.length = s.counts.length := by
  rcases hfi : firstIdx (fun r => r == 0 || fits r v) s.buckets with _ | j'
  · simp [ctStep, hfi] at h
  · simp only [ctStep, hfi] at h
    by_cases h0 : (s.buckets.getD j' 0 == 0) = true
    · rw [if_pos h0] at h
      simp only [Option.some.injEq, Prod.mk.injEq] at h
      obtain ⟨hs', _⟩ := h
      subst hs'
      simp [List.length_set]
    · rw [if_neg h0] at h
      simp only [Option.some.injEq, Prod.mk.injEq] at h
      obtain ⟨hs', _⟩ := h
      subst hs'
      simp [List.length_set]

theorem ctsbAux_lengths (ts : List Nat) (s : CTState) :
    (ctsbAux s ts).2.buckets.length = s.buckets.length ∧
    (ctsbAux s ts).2.sums.length = s.sums.length ∧
    (ctsbAux s ts).2.counts.length = s.counts.length := by
  induction ts generalizing s with
  | nil => exact ⟨rfl, rfl, rfl⟩
  | cons v vs ih =>
    rcases hst : ctStep s v with _ | ⟨s', j⟩
    · simp [ctsbAux, hst]
    · obtain ⟨e1, e2, e3⟩ := ctStep_lengths s s' v j hst
      obtain ⟨f1, f2, f3⟩ := ih s'
      simp only [ctsbAux, hst]
      exact ⟨by rw [f1, e1], by rw [f2, e2], by rw [f3, e3]⟩

theorem finalizeBuckets_length (bs ss cs : List Nat) (h1 : ss.length = bs.length)
    (h2 : cs.length = bs.length) : (finalizeBuckets bs ss cs).length = bs.length := by
  induction bs generalizing ss cs with
  | nil => rfl
  | cons b bs ih =>
    cases ss with
    | nil => simp at h1
    | cons s ss =>
      cases cs with
      | nil => simp at h2
      | cons c cs =>
        simp [finalizeBuckets, ih ss cs (by simpa using h1) (by simpa using h2)]

/-- Claim C9: on every input on which `compressTimingsAndSortBuckets` returns
true, the resulting bucket array is canonically ordered: there is a `k ≤ 8`
such that the first `k` entries are non-zero and non-decreasing and all
entries from index `k` on are zero — populated entries compacted to the
front in non-decreasing order, unused entries after them.  (When the input
needs exactly 8 classes the compaction loop zeroes the whole array, which
satisfies this with `k = 0`.) -/
theorem ctsb_buckets_canonical (ts : List Nat)
    (h : (compressTimingsAndSortBuckets ts).1 = true) :
    ∃ k, k ≤ 8 ∧
      (∀ i, i < k → (compressTimingsAndSortBuckets ts).2.1.getD i 0 ≠ 0) ∧
      (∀ i, k ≤ i → (compressTimingsAndSortBuckets ts).2.1.getD i 0 = 0) ∧
      (∀ i j, i ≤ j → j < k →
        (compressTimingsAndSortBuckets ts).2.1.getD i 0 ≤
          (compressTimingsAndSortBuckets ts).2.1.getD j 0) := by
  by_cases hok : (ctsbAux initCT ts).1 = true
  · have hlen : (finalizeBuckets (ctsbAux initCT ts).2.buckets (ctsbAux initCT ts).2.sums
        (ctsbAux initCT ts).2.counts).length = 8 := by
      obtain ⟨e1, e2, e3⟩ := ctsbAux_lengths ts initCT
      rw [finalizeBuckets_length _ _ _ (by rw [e2, e1]; rfl) (by rw [e3, e1]; rfl), e1]
      rfl
    have hval : (compressTimingsAndSortBuckets ts).2.1 =
        compact (sort8 (finalizeBuckets (ctsbAux initCT ts).2.buckets
          (ctsbAux initCT ts).2.sums (ctsbAux initCT ts).2.counts)) := by
      simp [compressTimingsAndSortBuckets, hok]
    obtain ⟨k, hk, h1, h2, h3⟩ := compact_canonical _
      (by rw [sort8_length, hlen]) (sort8_sorted _ (le_of_eq hlen))
    rw [hval]
    exact ⟨k, hk, h1, h2, h3⟩
  · exfalso
    simp [compressTimingsAndSortBuckets, hok] at h

/-- Witness for claim C9 at the input `[100, 300]`. -/
theorem ctsb_buckets_canonical_witness :
    (compressTimingsAndSortBuckets [100, 300]).1 = true ∧
    ∃ k, k ≤ 8 ∧
      (∀ i, i < k → (compressTimingsAndSortBuckets [100, 300]).2.1.getD i 0 ≠ 0) ∧
      (∀ i, k ≤ i → (compressTimingsAndSortBuckets [100, 300]).2.1.getD i 0 = 0) ∧
      (∀ i j, i ≤ j → j < k →
        (compressTimingsAndSortBuckets [100, 300]).2.1.getD i 0 ≤
          (compressTimingsAndSortBuckets [100, 300]).2.1.getD j 0) :=
  ⟨by decide, ctsb_buckets_canonical [100, 300] (by decide)⟩

theorem isrAppend_basic (p : Nat) (st : CaptureState) :
    (isrAppend p st).writer = st.writer ∧ (isrAppend p st).reader = st.reader ∧
    (isrAppend p st).periodTime = st.periodTime ∧
    (isrAppend p st).lastTime = st.lastTime := by
  simp only [isrAppend]
  split_ifs <;> simp

theorem isrAppend_streak_le (p : Nat) (st : CaptureState) (hs : st.streak + 1 < 256) :
    (isrAppend p st).streak ≤ st.streak + 1 := by
  by_cases hp0 : p = 0
  · simp [isrAppend, hp0]
  · by_cases hstr : 0 < st.streak
    · by_cases hidx : (st.writer + st.streak) % 256 = st.reader
      · simp [isrAppend, hp0, hstr, hidx]
      · simp only [isrAppend, if_neg hp0, if_pos hstr, if_neg hidx]
        omega
    · simp [isrAppend, hp0, hstr]

theorem isrAppend_msgbuf_writer (p : Nat) (st : CaptureState) (hw : st.writer < 256)
    (hs : st.streak < 256) :
    (isrAppend p st).msgbuf st.writer = st.msgbuf st.writer := by
  by_cases hp0 : p = 0
  · simp [isrAppend, hp0]
  · by_cases hstr : 0 < st.streak
    · by_cases hidx : (st.writer + st.streak) % 256 = st.reader
      · simp [isrAppend, hp0, hstr, hidx]
      · simp only [isrAppend, if_neg hp0, if_pos hstr, if_neg hidx]
        rw [if_neg (by omega : ¬ st.writer = (st.writer + st.streak) % 256)]
    · simp [isrAppend, hp0, hstr]

theorem isrAppend_full (p : Nat) (st : CaptureState) (hp0 : p ≠ 0) (hs : 0 < st.streak)
    (hfull : (st.writer + st.streak) % 256 = st.reader) :
    isrAppend p st = { st with streak := 0 } := by
  simp only [isrAppend]
  rw [if_neg hp0, if_pos hs, if_pos hfull]

/-- Claim C1 (code-bug evidence): the handler has no division-by-zero guard.
`startReceiving` sets `periodTime = 0`, and the next edge interrupt computes
`periods = (pulseTime + periodTime/2) / periodTime` with `periodTime = 0` —
undefined behaviour in C, `none` in the model — for every start state, start
time, edge time and polarity. -/
theorem isr_divides_by_zero_after_start (st : CaptureState) (now0 now : Nat) (lp : Bool) :
    (startReceiving now0 st).periodTime = 0 ∧ isr now lp (startReceiving now0 st) = none :=
  ⟨rfl, rfl⟩

/-- Claim C4 fails on the code: the streak is incremented while the pulse is
appended, before the weighted average is taken, so at `ex4` (periodTime 100,
2 pulses in the streak) a single-period pulse of 110 gives
`(100*3 + 220) / 5 = 104` and not the claim's `(100*2 + 220) / 4 = 105`. -/
theorem periodTime_refinement_claim_false :
    (isr 110 false ex4).map CaptureState.periodTime ≠
      some ((ex4.periodTime * ex4.streak + 2 * pulseTimeOf 110 ex4.lastTime) /
        (ex4.streak + 2)) := by
  decide

/-- Claim C4 as amended: on a high-polarity edge with a message in progress
(streak > 0, not wrapping, target slot free) whose pulse measures exactly one
period, the period estimate becomes
`(periodTime * (streak+1) + 2*pulseTime) / ((streak+1) + 2)` in integer
arithmetic (numerator mod 2^16), where `streak + 1` is the streak *after*
this pulse is appended. -/
theorem periodTime_refinement (st : CaptureState) (now : Nat)
    (hp : periodsOf (pulseTimeOf now st.lastTime) st.periodTime = some 1)
    (hs0 : 0 < st.streak) (hs : st.streak < 255)
    (hb : (st.writer + st.streak) % 256 ≠ st.reader) :
    ∃ st', isr now false st = some st' ∧
      st'.periodTime = u16 (st.periodTime * (st.streak + 1) +
        2 * pulseTimeOf now st.lastTime) / (st.streak + 3) := by
  have happ : isrAppend 1 { st with lastTime := u16 now, duration := pulseTimeOf now st.lastTime, new_duration := true } = { st with lastTime := u16 now, duration := pulseTimeOf now st.lastTime, new_duration := true, streak := (st.streak + 1) % 256, msgbuf := fun k => if k = (st.writer + st.streak) % 256 then 1 else st.msgbuf k } := by
    simp only [isrAppend]
    rw [if_neg (by omega : ¬ (1 : Nat) = 0), if_pos hs0, if_neg hb]
  have hmod : (st.streak + 1) % 256 = st.streak + 1 := Nat.mod_eq_of_lt (by omega)
  have hhigh : isrHigh 1 (pulseTimeOf now st.lastTime) { st with lastTime := u16 now, duration := pulseTimeOf now st.lastTime, new_duration := true, streak := (st.streak + 1) % 256, msgbuf := fun k => if k = (st.writer + st.streak) % 256 then 1 else st.msgbuf k } = { st with lastTime := u16 now, duration := pulseTimeOf now st.lastTime, new_duration := true, streak := (st.streak + 1) % 256, msgbuf := fun k => if k = (st.writer + st.streak) % 256 then 1 else st.msgbuf k, periodTime := u16 (st.periodTime * ((st.streak + 1) % 256) + 2 * pulseTimeOf now st.lastTime) / ((st.streak + 1) % 256 + 2) } := by
    simp only [isrHigh]
    rw [if_neg (by simp [MAX_PULSE_PERIODS] : ¬ MAX_PULSE_PERIODS < 1),
      if_pos (show (0 : Nat) < (st.streak + 1) % 256 by omega)]
    simp
  refine ⟨{ st with lastTime := u16 now, duration := pulseTimeOf now st.lastTime, new_duration := true, streak := (st.streak + 1) % 256, msgbuf := fun k => if k = (st.writer + st.streak) % 256 then 1 else st.msgbuf k, periodTime := u16 (st.periodTime * ((st.streak + 1) % 256) + 2 * pulseTimeOf now st.lastTime) / ((st.streak + 1) % 256 + 2) }, ?_, ?_⟩
  · simp only [isr, hp, Bool.false_eq_true, if_false]
    rw [happ, hhigh]
  · rw [show ({ st with lastTime := u16 now, duration := pulseTimeOf now st.lastTime, new_duration := true, streak := (st.streak + 1) % 256, msgbuf := fun k => if k = (st.writer + st.streak) % 256 then 1 else st.msgbuf k, periodTime := u16 (st.periodTime * ((st.streak + 1) % 256) + 2 * pulseTimeOf now st.lastTime) / ((st.streak + 1) % 256 + 2) } : CaptureState).periodTime = u16 (st.periodTime * ((st.streak + 1) % 256) + 2 * pulseTimeOf now st.lastTime) / ((st.streak + 1) % 256 + 2) from rfl, hmod]

/-- Witness for the amended claim C4 at `ex4`. -/
theorem periodTime_refinement_witness :
    ∃ st', isr 110 false ex4 = some st' ∧
      st'.periodTime = u16 (ex4.periodTime * (ex4.streak + 1) +
        2 * pulseTimeOf 110 ex4.lastTime) / (ex4.streak + 3) :=
  periodTime_refinement ex4 110 (by decide) (by decide) (by decide) (by decide)

/-- Claim C5: when a sync gap arrives (low pulse, period estimate above the
noise floor, over-long pulse) and the streak so far is shorter than
`MIN_MSG_LEN = 16`, the capture attempt is never finalized: the header slot
at `writer` is not written, `writer` does not advance, `reader` is untouched
and `hasData` is unchanged (stays false for it) — while a new streak of
length 1 still starts. -/
theorem short_streak_never_finalized (st : CaptureState) (now p : Nat)
    (hw : st.writer < 256)
    (hp : periodsOf (pulseTimeOf now st.lastTime) st.periodTime = some p)
    (hpt : MIN_PERIOD_TIME < st.periodTime) (hp20 : MAX_PULSE_PERIODS < p)
    (hs : st.streak < MIN_MSG_LEN) :
    ∃ st', isr now true st = some st' ∧ st'.writer = st.writer ∧
      st'.reader = st.reader ∧ st'.streak = 1 ∧
      st'.msgbuf st.writer = st.msgbuf st.writer ∧ hasData st' = hasData st := by
  have hs16 : st.streak < 16 := hs
  simp only [isr, hp, if_true]
  refine ⟨_, rfl, ?_⟩
  obtain ⟨ha1, ha2, ha3, _⟩ := isrAppend_basic p { st with lastTime := u16 now, duration := pulseTimeOf now st.lastTime, new_duration := true }
  have hale := isrAppend_streak_le p { st with lastTime := u16 now, duration := pulseTimeOf now st.lastTime, new_duration := true } (show st.streak + 1 < 256 by omega)
  have hamw := isrAppend_msgbuf_writer p { st with lastTime := u16 now, duration := pulseTimeOf now st.lastTime, new_duration := true } hw (show st.streak < 256 by omega)
  have hrs : ({ st with lastTime := u16 now, duration := pulseTimeOf now st.lastTime, new_duration := true } : CaptureState).streak = st.streak := rfl
  rw [hrs] at hale
  simp only [isrSync]
  rw [if_pos (show MIN_PERIOD_TIME < (isrAppend p { st with lastTime := u16 now, duration := pulseTimeOf now st.lastTime, new_duration := true }).periodTime ∧ MAX_PULSE_PERIODS < p from ⟨by rw [ha3]; exact hpt, hp20⟩)]
  rw [if_neg (show ¬ MIN_MSG_LEN < (isrAppend p { st with lastTime := u16 now, duration := pulseTimeOf now st.lastTime, new_duration := true }).streak from by simp only [MIN_MSG_LEN]; omega)]
  refine ⟨?_, ?_, rfl, ?_, ?_⟩
  · exact ha1
  · exact ha2
  · exact hamw
  · show ((isrAppend p { st with lastTime := u16 now, duration := pulseTimeOf now st.lastTime, new_duration := true }).writer != (isrAppend p { st with lastTime := u16 now, duration := pulseTimeOf now st.lastTime, new_duration := true }).reader) = (st.writer != st.reader)
    rw [ha1, ha2]

/-- Witness for claim C5 at `ex5` with a 2100-tick sync gap (21 periods). -/
theorem short_streak_never_finalized_witness :
    ∃ st', isr 2100 true ex5 = some st' ∧ st'.writer = ex5.writer ∧
      st'.reader = ex5.reader ∧ st'.streak = 1 ∧
      st'.msgbuf ex5.writer = ex5.msgbuf ex5.writer ∧ hasData st' = hasData ex5 :=
  short_streak_never_finalized ex5 2100 21 (by decide) (by decide) (by decide) (by decide)
    (by decide)

theorem inCommitted_congr (s t : CaptureState) (hr : s.reader = t.reader)
    (hw : s.writer = t.writer) (i : Nat) : inCommitted s i ↔ inCommitted t i := by
  unfold inCommitted committedLen
  rw [hr, hw]

theorem isrAppend_committed (p : Nat) (st : CaptureState) (hInv : CaptureInv st) :
    (∀ i, inCommitted st i → (isrAppend p st).msgbuf i = st.msgbuf i) ∧
    CaptureInv (isrAppend p st) := by
  obtain ⟨h1, h2, h3, h4⟩ := hInv
  by_cases hp0 : p = 0
  · refine ⟨fun i _ => by simp [isrAppend, hp0], ?_⟩
    simp only [isrAppend, if_pos hp0]
    rw [if_neg (show ¬ 0 < ({ st with streak := 0 } : CaptureState).streak from
      Nat.lt_irrefl 0)]
    exact ⟨(by decide : (0 : Nat) < 256), h2, h3, fun _ => Nat.zero_le _⟩
  · by_cases hstr : 0 < st.streak
    · by_cases hidx : (st.writer + st.streak) % 256 = st.reader
      · refine ⟨fun i _ => by simp [isrAppend, hp0, hstr, hidx], ?_⟩
        simp only [isrAppend, if_neg hp0, if_pos hstr, if_pos hidx]
        exact ⟨(by decide : (0 : Nat) < 256), h2, h3, fun _ => Nat.zero_le _⟩
      · constructor
        · intro i hi
          simp only [isrAppend, if_neg hp0, if_pos hstr, if_neg hidx]
          have hne : i ≠ (st.writer + st.streak) % 256 := by
            unfold inCommitted committedLen at hi
            by_cases hrw : st.reader = st.writer
            · rw [hrw] at hi
              omega
            · have h5 := h4 hrw
              intro he
              rw [he] at hi
              omega
          rw [if_neg hne]
        · simp only [isrAppend, if_neg hp0, if_pos hstr, if_neg hidx]
          refine ⟨Nat.mod_lt _ (by omega), h2, h3, fun hrw => ?_⟩
          have hrw' : st.reader ≠ st.writer := hrw
          have h5 := h4 hrw'
          show (st.streak + 1) % 256 ≤ (st.reader + 256 - st.writer) % 256
          omega
    · simp only [isrAppend, if_neg hp0, if_neg hstr]
      exact ⟨by simp, h1, h2, h3, h4⟩

theorem isrSync_committed (p : Nat) (st : CaptureState) (hInv : CaptureInv st) :
    (∀ i, inCommitted st i → (isrSync p st).msgbuf i = st.msgbuf i) ∧
    CaptureInv (isrSync p st) ∧ (isrSync p st).reader = st.reader := by
  obtain ⟨h1, h2, h3, h4⟩ := hInv
  by_cases hc : MIN_PERIOD_TIME < st.periodTime ∧ MAX_PULSE_PERIODS < p
  · by_cases hfin : MIN_MSG_LEN < st.streak
    · simp only [isrSync, if_pos hc, if_pos hfin]
      refine ⟨?_, ?_, by trivial⟩
      · intro i hi
        show (fun k => if k = st.writer then st.periodTime else st.msgbuf k) i = st.msgbuf i
        have hne : i ≠ st.writer := by
          unfold inCommitted committedLen at hi
          intro he
          rw [he] at hi
          omega
        simp only []
        rw [if_neg hne]
      · refine ⟨(by decide : (1 : Nat) < 256), ?_, h3, fun hrw => ?_⟩
        · show (st.writer + st.streak) % 256 < 256
          omega
        · have hrw' : st.reader ≠ (st.writer + st.streak) % 256 := hrw
          show (1 : Nat) ≤ (st.reader + 256 - (st.writer + st.streak) % 256) % 256
          omega
    · simp only [isrSync, if_pos hc, if_neg hfin]
      refine ⟨fun i _ => by trivial, ⟨(by decide : (1 : Nat) < 256), h2, h3, fun hrw => ?_⟩,
        by trivial⟩
      have hrw' : st.reader ≠ st.writer := hrw
      show (1 : Nat) ≤ (st.reader + 256 - st.writer) % 256
      omega
  · simp only [isrSync, if_neg hc]
    exact ⟨fun i _ => by trivial, ⟨h1, h2, h3, h4⟩, by trivial⟩

theorem isrSync_zero_streak (p : Nat) (st : CaptureState) (hs : st.streak = 0) :
    (isrSync p st).msgbuf = st.msgbuf ∧ (isrSync p st).writer = st.writer ∧
    ((isrSync p st).streak = 0 ∨ (isrSync p st).streak = 1) := by
  by_cases hc : MIN_PERIOD_TIME < st.periodTime ∧ MAX_PULSE_PERIODS < p
  · simp only [isrSync, if_pos hc]
    rw [if_neg (show ¬ MIN_MSG_LEN < st.streak from by rw [hs]; decide)]
    exact ⟨by trivial, by trivial, Or.inr (by trivial)⟩
  · simp only [isrSync, if_neg hc]
    exact ⟨by trivial, by trivial, Or.inl hs⟩

theorem isrHigh_frame (p pt : Nat) (st : CaptureState) :
    (isrHigh p pt st).msgbuf = st.msgbuf ∧ (isrHigh p pt st).writer = st.writer ∧
    (isrHigh p pt st).reader = st.reader ∧
    ((isrHigh p pt st).streak = 0 ∨ (isrHigh p pt st).streak = st.streak) := by
  by_cases hn : MAX_PULSE_PERIODS < p
  · simp only [isrHigh, if_pos hn]
    rw [if_neg (show ¬ 0 < ({ st with streak := 0 } : CaptureState).streak from
      Nat.lt_irrefl 0)]
    exact ⟨by trivial, by trivial, by trivial, Or.inl (by trivial)⟩
  · simp only [isrHigh, if_neg hn]
    by_cases hstr : 0 < st.streak
    · rw [if_pos hstr]
      by_cases hp1 : p = 1
      · rw [if_pos hp1]
        exact ⟨by trivial, by trivial, by trivial, Or.inr (by trivial)⟩
      · rw [if_neg hp1]
        exact ⟨by trivial, by trivial, by trivial, Or.inr (by trivial)⟩
    · rw [if_neg hstr]
      exact ⟨by trivial, by trivial, by trivial, Or.inr (by trivial)⟩

theorem isrHigh_inv (p pt : Nat) (st : CaptureState) (hInv : CaptureInv st) :
    CaptureInv (isrHigh p pt st) := by
  obtain ⟨h1, h2, h3, h4⟩ := hInv
  obtain ⟨f1, f2, f3, f4⟩ := isrHigh_frame p pt st
  refine ⟨?_, ?_, ?_, ?_⟩
  · rcases f4 with f4 | f4 <;> rw [f4]
    · decide
    · exact h1
  · rw [f2]
    exact h2
  · rw [f3]
    exact h3
  · intro hrw
    rw [f2, f3] at hrw ⊢
    rcases f4 with f4 | f4 <;> rw [f4]
    · exact Nat.zero_le _
    · exact h4 hrw

/-- Claim C6: with a message in progress, if the target slot `writer + streak`
(mod 256) equals `reader`, the handler resets the streak (ending at 0, or 1
when the same edge is also a sync) and performs *no* write — the buffer and
`writer` are untouched.  In general, under the producer invariant
`CaptureInv` (which every reachable capture state satisfies and which `isr`
preserves, as the second conjunct shows), one interrupt never modifies any
slot of the committed region between `reader` and `writer`, so unconsumed
finalized messages are never overwritten. -/
theorem capture_never_overwrites_committed (st : CaptureState) (now : Nat) (lp : Bool)
    (st' : CaptureState) (hInv : CaptureInv st) (h : isr now lp st = some st') :
    (∀ i, inCommitted st i → st'.msgbuf i = st.msgbuf i) ∧ CaptureInv st' ∧
    (∀ p, periodsOf (pulseTimeOf now st.lastTime) st.periodTime = some p → p ≠ 0 →
      0 < st.streak → (st.writer + st.streak) % 256 = st.reader →
      st'.msgbuf = st.msgbuf ∧ st'.writer = st.writer ∧
        (st'.streak = 0 ∨ st'.streak = 1)) := by
  rcases hper : periodsOf (pulseTimeOf now st.lastTime) st.periodTime with _ | p
  · simp [isr, hper] at h
  · simp only [isr, hper, Option.some.injEq] at h
    subst h
    have hInv1 : CaptureInv ({ st with lastTime := u16 now, duration := pulseTimeOf now st.lastTime, new_duration := true } : CaptureState) := hInv
    obtain ⟨hA, hAInv⟩ := isrAppend_committed p { st with lastTime := u16 now, duration := pulseTimeOf now st.lastTime, new_duration := true } hInv1
    obtain ⟨ha1, ha2, ha3, _⟩ := isrAppend_basic p { st with lastTime := u16 now, duration := pulseTimeOf now st.lastTime, new_duration := true }
    cases lp with
    | true =>
      simp only [eq_self_iff_true, if_true]
      obtain ⟨hS, hSInv, hSr⟩ := isrSync_committed p _ hAInv
      refine ⟨?_, hSInv, ?_⟩
      · intro i hi
        have hiA : inCommitted (isrAppend p { st with lastTime := u16 now, duration := pulseTimeOf now st.lastTime, new_duration := true }) i :=
          (inCommitted_congr _ st ha2 ha1 i).mpr hi
        rw [hS i hiA]
        exact hA i hi
      · intro p' hp' hp0 hstr hfull
        have hpp : p' = p := by
          simp only [Option.some.injEq] at hp'
          omega
        subst hpp
        have happ_eq : isrAppend p' { st with lastTime := u16 now, duration := pulseTimeOf now st.lastTime, new_duration := true } = { st with lastTime := u16 now, duration := pulseTimeOf now st.lastTime, new_duration := true, streak := 0 } :=
          isrAppend_full p' _ hp0 hstr hfull
        rw [happ_eq]
        obtain ⟨z1, z2, z3⟩ := isrSync_zero_streak p' { st with lastTime := u16 now, duration := pulseTimeOf now st.lastTime, new_duration := true, streak := 0 } rfl
        exact ⟨z1, z2, z3⟩
    | false =>
      simp only [Bool.false_eq_true, if_false]
      obtain ⟨f1, f2, f3, _⟩ := isrHigh_frame p (pulseTimeOf now st.lastTime) (isrAppend p { st with lastTime := u16 now, duration := pulseTimeOf now st.lastTime, new_duration := true })
      refine ⟨?_, isrHigh_inv _ _ _ hAInv, ?_⟩
      · intro i hi
        rw [f1]
        exact hA i hi
      · intro p' hp' hp0 hstr hfull
        have hpp : p' = p := by
          simp only [Option.some.injEq] at hp'
          omega
        subst hpp
        have happ_eq : isrAppend p' { st with lastTime := u16 now, duration := pulseTimeOf now st.lastTime, new_duration := true } = { st with lastTime := u16 now, duration := pulseTimeOf now st.lastTime, new_duration := true, streak := 0 } :=
          isrAppend_full p' _ hp0 hstr hfull
        rw [happ_eq] at f1 f2 f3 ⊢
        refine ⟨f1, f2, ?_⟩
        obtain ⟨g1, g2, g3, g4⟩ := isrHigh_frame p' (pulseTimeOf now st.lastTime) { st with lastTime := u16 now, duration := pulseTimeOf now st.lastTime, new_duration := true, streak := 0 }
        rcases g4 with g4 | g4
        · exact Or.inl g4
        · exact Or.inl g4

/-- Witness for claim C6 at `ex6` (a state satisfying the invariant, with a
committed region from reader 200 to writer 10). -/
theorem capture_never_overwrites_committed_witness :
    (∀ i, inCommitted ex6 i → ex6'.msgbuf i = ex6.msgbuf i) ∧ CaptureInv ex6' ∧
    (∀ p, periodsOf (pulseTimeOf 100 ex6.lastTime) ex6.periodTime = some p → p ≠ 0 →
      0 < ex6.streak → (ex6.writer + ex6.streak) % 256 = ex6.reader →
      ex6'.msgbuf = ex6.msgbuf ∧ ex6'.writer = ex6.writer ∧
        (ex6'.streak = 0 ∨ ex6'.streak = 1)) :=
  capture_never_overwrites_committed ex6 100 false ex6'
    (by refine ⟨?_, ?_, ?_, ?_⟩ <;> simp [ex6]) rfl

theorem skipLoop_spec (msgbuf : Nat → Nat) (w : Nat) :
    ∀ fuel r, r < 256 →
    (∃ k, k < fuel ∧ ((r + k) % 256 = w ∨ MAX_PULSE_PERIODS < msgbuf ((r + k) % 256))) →
    ∃ n, (∀ j, j < n → (r + j) % 256 ≠ w ∧ msgbuf ((r + j) % 256) ≤ MAX_PULSE_PERIODS) ∧
      ((r + n) % 256 = w ∨ MAX_PULSE_PERIODS < msgbuf ((r + n) % 256)) ∧
      skipLoop msgbuf w r fuel = (r + n) % 256 := by
  intro fuel
  induction fuel with
  | zero =>
    intro r hr hex
    obtain ⟨k, hk, _⟩ := hex
    omega
  | succ fuel ih =>
    intro r hr hex
    obtain ⟨k, hk, hstop⟩ := hex
    by_cases hcont : r ≠ w ∧ msgbuf r ≤ MAX_PULSE_PERIODS
    · have harg : ∀ j : Nat, ((r + 1) % 256 + j) % 256 = (r + (j + 1)) % 256 := by
        intro j
        rw [Nat.mod_add_mod]
        congr 1
        omega
      have hk0 : k ≠ 0 := by
        intro h0
        subst h0
        rw [show (r + 0) % 256 = r from by omega] at hstop
        rcases hstop with hstop | hstop
        · exact hcont.1 hstop
        · omega
      obtain ⟨n', hrun, hstop', heq⟩ := ih ((r + 1) % 256) (by omega)
        ⟨k - 1, by omega, by
          rw [harg (k - 1), show r + (k - 1 + 1) = r + k from by omega]
          exact hstop⟩
      refine ⟨n' + 1, ?_, ?_, ?_⟩
      · intro j hj
        cases j with
        | zero =>
          rw [show (r + 0) % 256 = r from by omega]
          exact ⟨hcont.1, hcont.2⟩
        | succ j =>
          have := hrun j (by omega)
          rw [harg j] at this
          exact this
      · have := hstop'
        rw [harg n'] at this
        exact this
      · rw [skipLoop, if_pos hcont, heq, harg n']
    · refine ⟨0, by omega, ?_, ?_⟩
      · rw [show (r + 0) % 256 = r from by omega]
        rcases Decidable.not_and_iff_or_not.1 hcont with h | h
        · exact Or.inl (by omega)
        · exact Or.inr (by omega)
      · rw [skipLoop, if_neg hcont, show (r + 0) % 256 = r from by omega]

/-- Claim C7: when the buffer is non-empty, `continueReceiving` advances
`reader` past exactly one message: one slot for the header, then the maximal
run of data slots (values `≤ MAX_PULSE_PERIODS`, stopping at `writer`), then
one further slot for the trailing sync marker when the run stopped on a sync
value rather than at `writer`; when the buffer is empty (`reader = writer`)
it is a no-op.  Nothing but `reader` changes, so a consumed message is never
re-exposed and pending messages are exposed in FIFO order. -/
theorem continueReceiving_one_message (st : CaptureState)
    (hr : st.reader < 256) (hw : st.writer < 256) :
    (st.reader = st.writer → continueReceiving st = st) ∧
    (st.reader ≠ st.writer → ∃ n r',
      continueReceiving st = { st with reader := r' } ∧
      (∀ j, j < n → (st.reader + 1 + j) % 256 ≠ st.writer ∧
        st.msgbuf ((st.reader + 1 + j) % 256) ≤ MAX_PULSE_PERIODS) ∧
      (((st.reader + 1 + n) % 256 = st.writer ∧ r' = st.writer) ∨
       ((st.reader + 1 + n) % 256 ≠ st.writer ∧
        MAX_PULSE_PERIODS < st.msgbuf ((st.reader + 1 + n) % 256) ∧
        r' = ((st.reader + 1 + n) % 256 + 1) % 256))) := by
  constructor
  · intro he
    rw [continueReceiving, if_neg (by omega)]
  · intro hne
    have harg : ∀ j : Nat, ((st.reader + 1) % 256 + j) % 256 = (st.reader + 1 + j) % 256 := by
      intro j
      rw [Nat.mod_add_mod]
    obtain ⟨n, hrun, hstop, heq⟩ := skipLoop_spec st.msgbuf st.writer 256
      ((st.reader + 1) % 256) (by omega)
      ⟨(st.writer + 256 - (st.reader + 1) % 256) % 256, by omega, Or.inl (by omega)⟩
    rw [harg n] at hstop
    have hrun' : ∀ j, j < n → (st.reader + 1 + j) % 256 ≠ st.writer ∧
        st.msgbuf ((st.reader + 1 + j) % 256) ≤ MAX_PULSE_PERIODS := by
      intro j hj
      have := hrun j hj
      rw [harg j] at this
      exact this
    have heq' : skipLoop st.msgbuf st.writer ((st.reader + 1) % 256) 256 =
        (st.reader + 1 + n) % 256 := by
      rw [heq, harg n]
    rcases hstop with hstop | hstop
    · refine ⟨n, st.writer, ?_, hrun', Or.inl ⟨hstop, rfl⟩⟩
      simp only [continueReceiving]
      rw [if_pos hne, heq', hstop, if_neg (show ¬ st.writer ≠ st.writer from fun hc => hc rfl)]
    · by_cases hsw : (st.reader + 1 + n) % 256 = st.writer
      · refine ⟨n, st.writer, ?_, hrun', Or.inl ⟨hsw, rfl⟩⟩
        simp only [continueReceiving]
        rw [if_pos hne, heq', hsw, if_neg (show ¬ st.writer ≠ st.writer from fun hc => hc rfl)]
      · refine ⟨n, ((st.reader + 1 + n) % 256 + 1) % 256, ?_, hrun',
          Or.inr ⟨hsw, hstop, rfl⟩⟩
        simp only [continueReceiving]
        rw [if_pos hne, heq', if_pos hsw]

/-- Witness for claim C7 at `ex7` (header at 0, data at 1–3, sync 25 at 4,
writer 5). -/
theorem continueReceiving_one_message_witness :
    (ex7.reader = ex7.writer → continueReceiving ex7 = ex7) ∧
    (ex7.reader ≠ ex7.writer → ∃ n r',
      continueReceiving ex7 = { ex7 with reader := r' } ∧
      (∀ j, j < n → (ex7.reader + 1 + j) % 256 ≠ ex7.writer ∧
        ex7.msgbuf ((ex7.reader + 1 + j) % 256) ≤ MAX_PULSE_PERIODS) ∧
      (((ex7.reader + 1 + n) % 256 = ex7.writer ∧ r' = ex7.writer) ∨
       ((ex7.reader + 1 + n) % 256 ≠ ex7.writer ∧
        MAX_PULSE_PERIODS < ex7.msgbuf ((ex7.reader + 1 + n) % 256) ∧
        r' = ((ex7.reader + 1 + n) % 256 + 1) % 256))) :=
  continueReceiving_one_message ex7 (by decide) (by decide)

theorem grLoop_spec (buf : Nat → Nat) (w pt rdr maxs : Nat) :
    ∀ fuel out size n, size ≤ n → n ≤ maxs → n ≤ size + fuel →
    (∀ j, size ≤ j → j < n →
      (rdr + j + 1) % 256 ≠ w ∧ buf ((rdr + j + 1) % 256) ≤ MAX_PULSE_PERIODS) →
    ((rdr + n + 1) % 256 = w ∨ MAX_PULSE_PERIODS < buf ((rdr + n + 1) % 256) ∨ n = maxs) →
    (grLoop buf w pt rdr maxs out size fuel).2 = n ∧
    (∀ j, size ≤ j → j < n →
      (grLoop buf w pt rdr maxs out size fuel).1 (rdr + j) = pt * buf ((rdr + j + 1) % 256)) ∧
    (∀ k, (∀ j, size ≤ j → j < n → k ≠ rdr + j) →
      (grLoop buf w pt rdr maxs out size fuel).1 k = out k) := by
  intro fuel
  induction fuel with
  | zero =>
    intro out size n h1 h2 h3 hrun hstop
    have hsn : size = n := by omega
    exact ⟨hsn, fun j hj1 hj2 => absurd (Nat.lt_of_le_of_lt hj1 hj2) (by omega),
      fun k _ => rfl⟩
  | succ fuel ih =>
    intro out size n h1 h2 h3 hrun hstop
    by_cases hlt : size < n
    · obtain ⟨ha, hb⟩ := hrun size le_rfl hlt
      have hcond : (rdr + size + 1) % 256 ≠ w ∧
          buf ((rdr + size + 1) % 256) ≤ MAX_PULSE_PERIODS ∧ size < maxs :=
        ⟨ha, hb, by omega⟩
      have heq : grLoop buf w pt rdr maxs out size (fuel + 1) =
          grLoop buf w pt rdr maxs
            (fun k => if k = rdr + size then pt * buf ((rdr + size + 1) % 256) else out k)
            (size + 1) fuel := by
        simp only [grLoop]
        rw [if_pos hcond]
      obtain ⟨ih1, ih2, ih3⟩ := ih
        (fun k => if k = rdr + size then pt * buf ((rdr + size + 1) % 256) else out k)
        (size + 1) n (by omega) h2 (by omega)
        (fun j hj1 hj2 => hrun j (by omega) hj2) hstop
      refine ⟨by rw [heq]; exact ih1, ?_, ?_⟩
      · intro j hj1 hj2
        rw [heq]
        rcases Nat.lt_or_ge size j with hlt2 | hge2
        · exact ih2 j (by omega) hj2
        · have hje : j = size := by omega
          subst hje
          rw [ih3 (rdr + j) (by intro j' hj1' hj2'; omega)]
          simp
      · intro k hk
        rw [heq, ih3 k (fun j' hj1' hj2' => hk j' (by omega) hj2')]
        have hne : k ≠ rdr + size := hk size le_rfl hlt
        simp [hne]
    · have hsn : size = n := by omega
      rw [← hsn] at hstop
      have hcond : ¬((rdr + size + 1) % 256 ≠ w ∧
          buf ((rdr + size + 1) % 256) ≤ MAX_PULSE_PERIODS ∧ size < maxs) := by
        rcases hstop with h | h | h <;> omega
      have heq : grLoop buf w pt rdr maxs out size (fuel + 1) = (out, size) := by
        simp only [grLoop]
        rw [if_neg hcond]
      refine ⟨by rw [heq]; exact hsn,
        fun j hj1 hj2 => absurd (Nat.lt_of_le_of_lt hj1 hj2) (by omega),
        fun k _ => by rw [heq]⟩

theorem runLenAux_eq (buf : Nat → Nat) (w rdr : Nat) :
    ∀ fuel j n, j ≤ n → n ≤ j + fuel →
    (∀ i, j ≤ i → i < n →
      (rdr + 1 + i) % 256 ≠ w ∧ buf ((rdr + 1 + i) % 256) ≤ MAX_PULSE_PERIODS) →
    ((rdr + 1 + n) % 256 = w ∨ MAX_PULSE_PERIODS < buf ((rdr + 1 + n) % 256)) →
    runLenAux buf w rdr j fuel = n := by
  intro fuel
  induction fuel with
  | zero =>
    intro j n h1 h2 hrun hstop
    have : j = n := by omega
    simpa [runLenAux] using this
  | succ fuel ih =>
    intro j n h1 h2 hrun hstop
    by_cases hlt : j < n
    · obtain ⟨ha, hb⟩ := hrun j le_rfl hlt
      rw [runLenAux, if_pos ⟨ha, hb⟩]
      exact ih (j + 1) n (by omega) (by omega) (fun i hi1 hi2 => hrun i (by omega) hi2) hstop
    · have hjn : j = n := by omega
      rw [← hjn] at hstop
      have hcond : ¬((rdr + 1 + j) % 256 ≠ w ∧
          buf ((rdr + 1 + j) % 256) ≤ MAX_PULSE_PERIODS) := by
        rcases hstop with h | h <;> omega
      rw [runLenAux, if_neg hcond]
      exact hjn

/-- Claim C8 fails on the code: at `ex8` the pending message wraps past slot
255 and abuts `writer` with no trailing sync slot; the source's sync test
`(reader+pos) != writer` omits the byte cast, so `getRaw` appends a spurious
entry `pt * msgbuf[writer]` and reports 11 entries where the claim's reading
of the buffer yields 10. -/
theorem getRaw_claim_false :
    (getRaw 512 ex8).2 = 11 ∧ getRawClaimSize 512 ex8 = 10 ∧
      (getRaw 512 ex8).2 ≠ getRawClaimSize 512 ex8 := by decide

/-- Claim C8 as amended: `getRaw` leaves the capture state (in particular
`reader`) unchanged, returning only the flat contents and a size; on every
well-formed buffer (as capture produces: byte-ranged cursors and, when a
message is pending, a committed region of at least two slots ending in a sync
marker just before `writer`) the reported size equals the size the claim
describes — 0 exactly when no message is pending or the unwound message does
not fit the remaining flat space — and a fitting pending message unwinds to
its data run of `runLen` entries plus the trailing sync entry, every returned
entry being the header period time multiplied by the corresponding stored
period count, with every other flat slot left at its original value. -/
theorem getRawCharacterization (N : Nat) (st : CaptureState) (hwf : WFBuffer st) :
    (getRaw N st).2 = getRawClaimSize N st ∧
    (st.reader ≠ st.writer →
      runLen st.msgbuf st.writer st.reader < N - st.reader →
      (getRaw N st).2 = runLen st.msgbuf st.writer st.reader + 1 ∧
      MAX_PULSE_PERIODS <
        st.msgbuf ((st.reader + 1 + runLen st.msgbuf st.writer st.reader) % 256) ∧
      (∀ j, j ≤ runLen st.msgbuf st.writer st.reader →
        (getRaw N st).1 (st.reader + j) =
          st.msgbuf st.reader * st.msgbuf ((st.reader + 1 + j) % 256)) ∧
      (∀ k, (∀ j, j ≤ runLen st.msgbuf st.writer st.reader → k ≠ st.reader + j) →
        (getRaw N st).1 k = st.msgbuf k)) := by
  obtain ⟨hr, hw, hcm⟩ := hwf
  by_cases hne : st.reader = st.writer
  · refine ⟨?_, fun hcon _ => absurd hne hcon⟩
    rw [getRaw, if_neg (fun hc => hc hne), getRawClaimSize, if_pos hne]
  · obtain ⟨hc2, hsync⟩ := hcm hne
    have hk0 : (st.reader + 1 + (st.writer + 511 - (st.reader + 1)) % 256) % 256 =
        (st.writer + 255) % 256 := by omega
    have hexP : ∃ k, (st.reader + 1 + k) % 256 = st.writer ∨
        MAX_PULSE_PERIODS < st.msgbuf ((st.reader + 1 + k) % 256) := by
      refine ⟨(st.writer + 511 - (st.reader + 1)) % 256, Or.inr ?_⟩
      rw [hk0]; exact hsync
    obtain ⟨n, hn255, hPn, hmin⟩ : ∃ n, n < 256 ∧
        ((st.reader + 1 + n) % 256 = st.writer ∨
          MAX_PULSE_PERIODS < st.msgbuf ((st.reader + 1 + n) % 256)) ∧
        ∀ m, m < n → ¬((st.reader + 1 + m) % 256 = st.writer ∨
          MAX_PULSE_PERIODS < st.msgbuf ((st.reader + 1 + m) % 256)) :=
      ⟨Nat.find hexP,
        lt_of_le_of_lt (Nat.find_min' hexP (Or.inr (by rw [hk0]; exact hsync))) (by omega),
        Nat.find_spec hexP, fun m hm => Nat.find_min hexP hm⟩
    have hrun : ∀ i, i < n → (st.reader + 1 + i) % 256 ≠ st.writer ∧
        st.msgbuf ((st.reader + 1 + i) % 256) ≤ MAX_PULSE_PERIODS := by
      intro i hi
      have h := hmin i hi
      push_neg at h
      exact ⟨h.1, by omega⟩
    have hnw : (st.reader + 1 + n) % 256 ≠ st.writer := by
      intro hWeq
      rcases Nat.eq_zero_or_pos n with h0 | hpos
      · subst h0
        simp only [committedLen] at hc2
        omega
      · have hprev := (hrun (n - 1) (by omega)).2
        rw [show (st.reader + 1 + (n - 1)) % 256 = (st.writer + 255) % 256 from by omega]
          at hprev
        omega
    have hsync' : MAX_PULSE_PERIODS < st.msgbuf ((st.reader + 1 + n) % 256) := by
      rcases hPn with h | h
      · exact absurd h hnw
      · exact h
    have hrl : runLen st.msgbuf st.writer st.reader = n :=
      runLenAux_eq st.msgbuf st.writer st.reader 256 0 n (by omega) (by omega)
        (fun i _ hi => hrun i hi) (Or.inr hsync')
    have hflip : ∀ j : Nat, (st.reader + j + 1) % 256 = (st.reader + 1 + j) % 256 := by
      intro j; omega
    have hrdmod : st.reader % 256 = st.reader := Nat.mod_eq_of_lt hr
    by_cases hfit : n < N - st.reader
    · obtain ⟨hg1, hg2, hg3⟩ := grLoop_spec st.msgbuf st.writer
        (st.msgbuf (st.reader % 256)) st.reader (N - st.reader) (N - st.reader)
        st.msgbuf 0 n (Nat.zero_le n) (by omega) (by omega)
        (by intro j hj0 hj; rw [hflip j]; exact hrun j hj)
        (by rw [hflip n]; exact Or.inr (Or.inl hsync'))
      have hne2 : st.reader + n + 1 ≠ st.writer := by
        intro h
        exact hnw (by omega)
      have hgetRaw : getRaw N st =
          ((fun k => if k = st.reader + n then st.msgbuf (st.reader % 256) *
              st.msgbuf ((st.reader + n + 1) % 256)
            else (grLoop st.msgbuf st.writer (st.msgbuf (st.reader % 256)) st.reader
              (N - st.reader) st.msgbuf 0 (N - st.reader)).1 k),
           n + 1) := by
        simp only [getRaw]
        rw [if_pos hne, hg1]
        rw [if_neg (show ¬ (N - st.reader ≤ n) from by omega)]
        rw [if_pos hne2]
      have hsize : (getRaw N st).2 = n + 1 := by rw [hgetRaw]
      have hout : ∀ k, (getRaw N st).1 k =
          if k = st.reader + n then st.msgbuf (st.reader % 256) *
            st.msgbuf ((st.reader + n + 1) % 256)
          else (grLoop st.msgbuf st.writer (st.msgbuf (st.reader % 256)) st.reader
            (N - st.reader) st.msgbuf 0 (N - st.reader)).1 k :=
        fun k => by rw [hgetRaw]
      have hclaim : getRawClaimSize N st = n + 1 := by
        simp only [getRawClaimSize]
        rw [if_neg hne, hrl]
        rw [if_neg (show ¬ (N - st.reader ≤ n) from by omega), if_pos hnw]
      refine ⟨by rw [hsize, hclaim], fun _ _ => ⟨by rw [hsize, hrl], ?_, ?_, ?_⟩⟩
      · rw [hrl]; exact hsync'
      · intro j hj
        rw [hrl] at hj
        rw [hout (st.reader + j)]
        rcases Nat.lt_or_ge j n with hjn | hjn
        · rw [if_neg (show st.reader + j ≠ st.reader + n from by omega)]
          rw [hg2 j (Nat.zero_le j) hjn, hrdmod, hflip j]
        · have hje : j = n := by omega
          subst hje
          rw [if_pos rfl, hrdmod, hflip j]
      · intro k hk
        rw [hrl] at hk
        rw [hout k, if_neg (hk n le_rfl)]
        exact hg3 k (fun j _ hj => hk j (Nat.le_of_lt hj))
    · obtain ⟨hg1, _, _⟩ := grLoop_spec st.msgbuf st.writer
        (st.msgbuf (st.reader % 256)) st.reader (N - st.reader) (N - st.reader)
        st.msgbuf 0 (N - st.reader) (Nat.zero_le _) le_rfl (by omega)
        (by intro j hj0 hj; rw [hflip j]; exact hrun j (by omega))
        (Or.inr (Or.inr rfl))
      have hsize : (getRaw N st).2 = 0 := by
        simp only [getRaw]
        rw [if_pos hne, hg1, if_pos le_rfl]
      have hclaim : getRawClaimSize N st = 0 := by
        simp only [getRawClaimSize]
        rw [if_neg hne, hrl, if_pos (show N - st.reader ≤ n from by omega)]
      refine ⟨hsize.trans hclaim.symm, fun _ hcon => ?_⟩
      rw [hrl] at hcon
      exact absurd hcon hfit

/-- Witness for the amended claim C8 at the well-formed buffer `ex8w`
(header 100 at slot 0, 18 data slots, sync 25 at slot 19) with capacity
512. -/
theorem getRawCharacterization_witness :
    WFBuffer ex8w ∧ (getRaw 512 ex8w).2 = getRawClaimSize 512 ex8w :=
  ⟨by unfold WFBuffer; decide,
    (getRawCharacterization 512 ex8w (by unfold WFBuffer; decide)).1⟩
